import Mathlib

/-!
# GroupThink — verification of the conversation-assembly core

A shallow embedding, in Lean 4, of the pure core of the GroupThink Discord
bot (TypeScript sources under `src/`):

* context collection and checkpoint (summary-marker) truncation
  (`getChannelContext`, `getThreadContext`, `discordMessagesToLLMConversation`
  from `src/workflow.ts`);
* the response splitter (`splitLongMessage` from `src/workflow.ts`);
* the usage/cost report (`formatUsageInfo`, `PRICING` from `src/workflow.ts`);
* the streaming client loop and SSE reader (`chatStream`, `readToolStream`,
  `mergeUsage`, `withCaching`, `markCached` from the Claude client);
* branch resolution, which has no implementation in the sources and is
  modelled from the specification.

JavaScript strings are embedded as `List Char`; JavaScript library
functions used by the sources (`trim`, `startsWith`, `lastIndexOf`,
`findLastIndex`, regexp matching) are given executable Lean definitions
mirroring their ECMAScript semantics on the inputs the program uses.
Network and Discord I/O is abstracted: functions receive already-fetched
message lists (newest first, as the Discord API returns them) and
attachment/JSON-parsing oracles.
-/

namespace Groupthink

/-- JavaScript strings, embedded as lists of characters. -/
abbrev Str := List Char

/-- Whitespace as recognised by JavaScript `trim` / regexp `\s`
(restricted to the ASCII range, which covers every character the
program manipulates). -/
def isJsWs (c : Char) : Bool :=
  c == ' ' || c == '\t' || c == '\n' || c == '\r' ||
  c == Char.ofNat 11 || c == Char.ofNat 12

/-- ECMAScript `String.prototype.startsWith`: is `pre` a prefix of `s`. -/
def jsStartsWith : Str → Str → Bool
  | [], _ => true
  | _ :: _, [] => false
  | p :: ps, c :: cs => p == c && jsStartsWith ps cs

/-- ECMAScript `String.prototype.trim`, left half: drop leading whitespace. -/
def trimLeft (s : Str) : Str := s.dropWhile isJsWs

/-- ECMAScript `String.prototype.trim`, right half: drop trailing whitespace. -/
def trimRight (s : Str) : Str := (s.reverse.dropWhile isJsWs).reverse

/-- ECMAScript `String.prototype.trim`. -/
def jsTrim (s : Str) : Str := trimRight (trimLeft s)

/-- ECMAScript `Array.prototype.findLastIndex` / the analogous backwards
scan: index of the last element satisfying `p`, if any. -/
def findLastIdx? (p : α → Bool) : List α → Option Nat
  | [] => none
  | a :: as =>
    match findLastIdx? p as with
    | some k => some (k + 1)
    | none => if p a then some 0 else none

/-- `findLastIndex` with the JavaScript `-1`-for-missing convention. -/
def findLastIndex (p : α → Bool) (l : List α) : Int :=
  match findLastIdx? p l with
  | some k => (k : Int)
  | none => -1

/-- `findLastIndex` for predicates that also see the element's index
(as in `result.findLastIndex((m, i) => ...)`). -/
def findLastIdxI? (p : α → Nat → Bool) (l : List α) : Option Nat :=
  go p l 0
where
  go (p : α → Nat → Bool) : List α → Nat → Option Nat
    | [], _ => none
    | a :: as, i =>
      match go p as (i + 1) with
      | some k => some k
      | none => if p a i then some i else none

/-- Functional rendering of an in-place update `l[i] = f(l[i])`. -/
def updateAt (l : List α) (i : Nat) (f : α → α) : List α :=
  match l.get? i with
  | some a => l.set i (f a)
  | none => l

/- (string/list lemmas moved to the theorems half of the file) -/

/-! ## Discord data model (`src/discord.ts`)

`reactions` and `attachments` are optional arrays in the source; every
consumer reads them through `?.…  ?? []`, so a missing array behaves as the
empty one and is embedded as `[]`. -/

/-- `DiscordMessage.author` from `src/discord.ts`. -/
structure DiscordAuthor where
  id : Str
  username : Str
  bot : Bool
deriving DecidableEq

/-- `DiscordReaction` from `src/discord.ts` (`emoji.name` flattened). -/
structure DiscordReaction where
  emojiName : Str
  count : Nat
deriving DecidableEq

/-- `DiscordAttachment` from `src/discord.ts`. -/
structure DiscordAttachment where
  filename : Str
  url : Str
  contentType : Option Str
deriving DecidableEq

/-- `DiscordMessage` from `src/discord.ts`. -/
structure DiscordMessage where
  id : Str
  content : Str
  author : DiscordAuthor
  reactions : List DiscordReaction
  attachments : List DiscordAttachment
deriving DecidableEq

/-- The plain-text extensions of `PLAIN_TEXT_EXT` in `src/discord.ts`
(the regexp `\.(txt|…)$/i`, modelled as case-insensitive suffix tests). -/
def PLAIN_TEXT_EXT : List Str :=
  [".txt", ".md", ".json", ".csv", ".log", ".xml", ".yaml", ".yml",
   ".html", ".htm", ".rst", ".tex", ".adoc"].map String.toList

/-- `isPlainTextAttachment` from `src/discord.ts`. -/
def isPlainTextAttachment (a : DiscordAttachment) : Bool :=
  (match a.contentType with
   | some ct =>
     jsStartsWith "text/".toList ct
       || ct == "application/json".toList || ct == "application/xml".toList
   | none => false)
  || PLAIN_TEXT_EXT.any (fun ext => ext.isSuffixOf (a.filename.map Char.toLower))

/-- The JPEG-attachment test `a.content_type?.startsWith("image/jp")`
from `src/workflow.ts`. -/
def isJpegAttachment (a : DiscordAttachment) : Bool :=
  match a.contentType with
  | some ct => jsStartsWith "image/jp".toList ct
  | none => false

/-! ## Constants and markers (`src/workflow.ts`) -/

/-- `MAX_MESSAGE_LENGTH` from `src/workflow.ts`. -/
def MAX_MESSAGE_LENGTH : Nat := 2000

/-- `SUMMARY_MARKER` from `src/workflow.ts`: the checkpoint sentinel. -/
def SUMMARY_MARKER : Str := "--- Summary so far ---".toList

/-- `isSummaryMarker` from `src/workflow.ts`:
`!!msg.author.bot && !!msg.content?.startsWith(SUMMARY_MARKER)`. -/
def isSummaryMarker (m : DiscordMessage) : Bool :=
  m.author.bot && jsStartsWith SUMMARY_MARKER m.content

/-! ## Context collection (`src/workflow.ts`)

`getAllMessages` returns messages newest first; the collection functions
take that fetched list as input and first reverse it to chronological
order, exactly as the source does. -/

/-- `getChannelContext` from `src/workflow.ts`: reverse to chronological
order, then keep everything from the last summary marker (inclusive),
or the whole log if there is none. -/
def getChannelContext (fetched : List DiscordMessage) : List DiscordMessage :=
  let chronological := fetched.reverse
  let startIndex : Nat :=
    match findLastIdx? isSummaryMarker chronological with
    | some i => i
    | none => 0
  chronological.drop startIndex

/-- `getThreadContext` from `src/workflow.ts`.  `parentFetched` is the
parent channel's fetched message list when the thread has a `parent_id`,
`none` otherwise; `threadFetched` is the thread's own fetched list. -/
def getThreadContext (parentFetched : Option (List DiscordMessage))
    (threadFetched : List DiscordMessage) : List DiscordMessage :=
  match parentFetched with
  | none => threadFetched.reverse
  | some pf => getChannelContext pf ++ threadFetched.reverse

/-! ## Conversation conversion (`src/workflow.ts`)

`discordMessagesToLLMConversation` builds Anthropic `Message`s.  The
`fetchText`/`fetchImage` oracles stand for the awaited attachment
downloads (`fetchPlainTextAttachment`, base64 of the fetched JPEG). -/

/-- Message role, `"user" | "assistant"`. -/
inductive Role
  | user
  | assistant
deriving DecidableEq

/-- One content block of an Anthropic message; `cacheControl` models the
optional `cache_control: {type: "ephemeral", ttl: "1h"}` field. -/
inductive ContentBlock
  | text (text : Str) (cacheControl : Bool)
  | image (data : Str) (cacheControl : Bool)
deriving DecidableEq

/-- Anthropic message content: a bare string or an array of blocks. -/
inductive MessageContent
  | str (s : Str)
  | blocks (bs : List ContentBlock)
deriving DecidableEq

/-- The `Message` interface of the Claude client. -/
structure Message where
  role : Role
  content : MessageContent
deriving DecidableEq

/-- The synthetic continuation turn pushed by
`discordMessagesToLLMConversation` when the conversation ends with an
assistant turn. -/
def continuationTurn : Message :=
  ⟨Role.user, MessageContent.str "[System]: Please continue the conversation.".toList⟩

/-- The per-message conversion inside `discordMessagesToLLMConversation`:
author tag block, content block, inlined plain-text attachments, inlined
JPEG attachments, reaction notes. -/
def msgToMessage (fetchText fetchImage : Str → Str) (m : DiscordMessage) : Message :=
  { role := if m.author.bot then Role.assistant else Role.user
    content := MessageContent.blocks
      ([ContentBlock.text
          ("[From <@".toList ++ m.author.id ++ "> (".toList
            ++ m.author.username ++ ")]".toList) false,
        ContentBlock.text m.content false]
       ++ (m.attachments.filter isPlainTextAttachment).map
            (fun a => ContentBlock.text (fetchText a.url) false)
       ++ (m.attachments.filter isJpegAttachment).map
            (fun a => ContentBlock.image (fetchImage a.url) false)
       ++ m.reactions.map
            (fun r => ContentBlock.text
              (r.emojiName ++ " x".toList ++ (toString r.count).toList) false)) }

/-- The sentinel prefix `"-#"` of bot metadata lines. -/
def metaSentinel : Str := "-#".toList

/-- The message-selection stage of `discordMessagesToLLMConversation`:
slice from the last summary marker
(`.slice(Math.max(0, lastSummaryMarkerIndex))`), drop empty messages,
drop `-#`-prefixed metadata lines. -/
def llmSelectedMessages (messages : List DiscordMessage) : List DiscordMessage :=
  ((messages.drop (max 0 (findLastIndex isSummaryMarker messages)).toNat).filter
      (fun m => !(jsTrim m.content).isEmpty)).filter
    (fun m => !jsStartsWith metaSentinel (jsTrim m.content))

/-- The final continuation push of `discordMessagesToLLMConversation`:
`if (conversation.at(-1)?.role === "assistant") conversation.push(…)`. -/
def withContinuation (conversation : List Message) : List Message :=
  if conversation.getLast?.map Message.role = some Role.assistant then
    conversation ++ [continuationTurn]
  else conversation

/-- `discordMessagesToLLMConversation` from `src/workflow.ts`. -/
def discordMessagesToLLMConversation (fetchText fetchImage : Str → Str)
    (messages : List DiscordMessage) : List Message :=
  withContinuation ((llmSelectedMessages messages).map (msgToMessage fetchText fetchImage))

/-- A message survives the two content filters of
`discordMessagesToLLMConversation`: nonempty after trimming and not a
`-#` metadata line.  (These are the "content-bearing" messages of the
specification.) -/
def contentBearing (m : DiscordMessage) : Bool :=
  !(jsTrim m.content).isEmpty && !jsStartsWith metaSentinel (jsTrim m.content)

/- (assembly lemmas moved to the theorems half of the file) -/


/-! ## Response splitting (`src/workflow.ts`)

`splitLongMessage` reflows an over-length text into chunks of at most
`maxLen` characters, preferring a paragraph break, then a line break,
then a sentence end, then a space, and hard-cutting as a last resort.
The JavaScript library pieces it relies on — `String.prototype.lastIndexOf`
with a `fromIndex`, and matching the regexp `/.*[.!?]\s/` — are given
executable models below. -/

/-- ECMAScript `String.prototype.lastIndexOf(search, fromIndex)`: the
largest start position `i ≤ min fromIndex s.length` at which `search`
occurs in `s`, or `-1`.  Implemented as a single forward scan keeping the
best hit. -/
def jsLastIndexOfAux (search : Str) : Nat → Str → Nat → Int → Int
  | 0, _, _, best => best
  | fuel + 1, s, i, best =>
    jsLastIndexOfAux search fuel s.tail (i + 1)
      (if search.isPrefixOf s then (i : Int) else best)

/-- See `jsLastIndexOfAux`. -/
def jsLastIndexOf (s search : Str) (fromIndex : Nat) : Int :=
  jsLastIndexOfAux search (min fromIndex s.length + 1) s 0 (-1)

/-- The character class `[.!?]` of the sentence-end regexp. -/
def isSentenceEnd (c : Char) : Bool := c == '.' || c == '!' || c == '?'

/-- A character matched by `.` in a JavaScript regexp (anything except a
line terminator). -/
def isDotChar (c : Char) : Bool := !(c == '\n' || c == '\r')

/-- The greedy match of `/.*[.!?]\s/` when attempted at position `p` of
`s`: `.*` consumes the longest run of non-terminator characters from `p`
that leaves a `[.!?]` at some `i` followed by a `\s` at `i + 1`; the
match's length is `i + 2 - p` for the largest such `i`.  `none` when no
backtracking choice succeeds at `p`. -/
def sentenceMatchLenAt (s : Str) (p : Nat) : Option Nat :=
  (((List.range s.length).filter (fun i =>
      decide (p ≤ i) && decide (i + 1 < s.length)
        && ((s.drop p).take (i - p)).all isDotChar
        && isSentenceEnd (s.getD i ' ') && isJsWs (s.getD (i + 1) ' '))).getLast?).map
    (fun i => i + 2 - p)

/-- `s.match(/.*[.!?]\s/)`, returning the matched length: the greedy
match at the leftmost position that admits one. -/
def jsSentenceMatchLen (s : Str) : Option Nat :=
  (((List.range s.length).filterMap
      (fun p => (sentenceMatchLenAt s p).map (fun len => (p, len)))).head?).map
    Prod.snd

/-- The sentence-end candidate of `splitLongMessage`:
`remaining.slice(0, maxLen).match(/.*[.!?]\s/)`, its matched length, or
`-1` with no match. -/
def sentenceSplitIndex (remaining : Str) (maxLen : Nat) : Int :=
  match jsSentenceMatchLen (remaining.take maxLen) with
  | some len => (len : Int)
  | none => -1

/-- The split-position chain of `splitLongMessage` in `src/workflow.ts`:
paragraph break, falling through (on `-1` or below `maxLen / 2`) to line
break, to sentence end, to space; `-1` at the end becomes a hard cut at
`maxLen`. -/
def computeSplitIndex (remaining : Str) (maxLen : Nat) : Int :=
  let s1 := jsLastIndexOf remaining "\n\n".toList maxLen
  let s2 := if s1 = -1 ∨ s1 < (maxLen : Int) / 2 then
      jsLastIndexOf remaining "\n".toList maxLen
    else s1
  let s3 := if s2 = -1 ∨ s2 < (maxLen : Int) / 2 then
      sentenceSplitIndex remaining maxLen
    else s2
  let s4 := if s3 = -1 ∨ s3 < (maxLen : Int) / 2 then
      jsLastIndexOf remaining [' '] maxLen
    else s3
  if s4 = -1 then (maxLen : Int) else s4

/-- The `while (remaining.length > maxLen)` loop of `splitLongMessage`,
with a structural fuel bounding the iteration count.  Every iteration
strictly shortens `remaining` (the cut is positive, or the leading
character is a space removed by `trim`), so the fuel
`splitLongMessage` supplies is never exhausted. -/
def splitLongMessageGo (maxLen : Nat) : Nat → Str → List Str
  | 0, _ => []
  | fuel + 1, remaining =>
    if remaining.length > maxLen then
      let splitIndex := (computeSplitIndex remaining maxLen).toNat
      jsTrim (remaining.take splitIndex)
        :: splitLongMessageGo maxLen fuel (jsTrim (remaining.drop splitIndex))
    else if remaining.length > 0 then [remaining] else []

/-- `splitLongMessage` from `src/workflow.ts` (the `maxLen` parameter
defaults to `MAX_MESSAGE_LENGTH` at every call site). -/
def splitLongMessage (text : Str) (maxLen : Nat) : List Str :=
  splitLongMessageGo maxLen (text.length + 1) text

/-! ## Usage/cost reporting (`src/workflow.ts`)

Token counters are integers; prices are exact rationals.  The source
computes the dollar figure in IEEE double precision; the rational model
agrees with it on every value whose 4-decimal rounding is not at a
representation boundary, in particular on all the concrete usage records
considered here. -/

/-- A `usage` record: JavaScript object with numeric fields, embedded as
an association list in insertion order. -/
abbrev Usage := List (Str × Int)

/-- `(usage.key as number) || 0`: read a numeric usage field, defaulting
to `0`. -/
def usageGet (usage : Usage) (key : Str) : Int :=
  match usage.lookup key with
  | some v => v
  | none => 0

/-- `ModelTier` from the Claude client. -/
inductive ModelTier
  | haiku
  | sonnet
  | opus
deriving DecidableEq

/-- One row of the `PRICING` table (fields `in`, `out`, `cacheRead`,
`cacheWrite`; `in` and `out` are renamed because `in` is a Lean keyword). -/
structure Pricing where
  input : ℚ
  output : ℚ
  cacheRead : ℚ
  cacheWrite : ℚ

/-- `PRICING` from `src/workflow.ts` (per million tokens). -/
def PRICING : ModelTier → Pricing
  | ModelTier.haiku => ⟨1, 5, 1/10, 2⟩
  | ModelTier.sonnet => ⟨3, 15, 3/10, 6⟩
  | ModelTier.opus => ⟨5, 25, 1/2, 10⟩

/-- The tier's name as written into the report. -/
def modelTierName : ModelTier → Str
  | ModelTier.haiku => "haiku".toList
  | ModelTier.sonnet => "sonnet".toList
  | ModelTier.opus => "opus".toList

/-- Decimal digits of a natural number (auxiliary, fuel = digit count). -/
def natToStrAux : Nat → Nat → Str
  | 0, _ => []
  | fuel + 1, n =>
    if n == 0 then [] else natToStrAux fuel (n / 10) ++ [Char.ofNat (48 + n % 10)]

/-- Decimal rendering of a natural number. -/
def natToStr (n : Nat) : Str :=
  if n == 0 then ['0'] else natToStrAux (n + 1) n

/-- Insert thousands separators into a digit string (auxiliary; consumes
and produces the reversed digit list). -/
def insertThousandsAux : Nat → Str → Str
  | _, [] => []
  | i, c :: cs =>
    c :: (if (i + 1) % 3 == 0 && !cs.isEmpty then
            ',' :: insertThousandsAux (i + 1) cs
          else insertThousandsAux (i + 1) cs)

/-- ECMAScript `Number.prototype.toLocaleString` for integers in the
default locale: decimal digits with `,` thousands separators. -/
def toLocaleString (n : Int) : Str :=
  let digits := natToStr n.natAbs
  (if n < 0 then ['-'] else []) ++ (insertThousandsAux 0 digits.reverse).reverse

/-- ECMAScript `Number.prototype.toFixed(d)` on an exact rational:
round `|q| · 10^d` to the nearest integer (ties up) and print with a
decimal point `d` digits from the right. -/
def toFixed (d : Nat) (q : ℚ) : Str :=
  let r : Nat := (⌊|q| * (10 : ℚ) ^ d + 1/2⌋).toNat
  let digits := natToStr r
  let padded := List.replicate (d + 1 - digits.length) '0' ++ digits
  (if q < 0 then ['-'] else [])
    ++ padded.take (padded.length - d)
    ++ (if d == 0 then [] else '.' :: padded.drop (padded.length - d))

/-- `Array.prototype.join(sep)`. -/
def joinSep (sep : Str) : List Str → Str
  | [] => []
  | [s] => s
  | s :: rest => s ++ sep ++ joinSep sep rest

/-- The dollar total computed inside `formatUsageInfo`:
`Σ tokens/1e6 · rate` over input, output, cache-read and cache-write. -/
def usageTotalCost (usage : Usage) (modelTier : ModelTier) : ℚ :=
  let inputTokens := usageGet usage "input_tokens".toList
  let outputTokens := usageGet usage "output_tokens".toList
  let cacheCreationTokens := usageGet usage "cache_creation_input_tokens".toList
  let cacheReadTokens := usageGet usage "cache_read_input_tokens".toList
  let p := PRICING modelTier
  (inputTokens / 1000000 : ℚ) * p.input
    + (outputTokens / 1000000 : ℚ) * p.output
    + (cacheReadTokens / 1000000 : ℚ) * p.cacheRead
    + (cacheCreationTokens / 1000000 : ℚ) * p.cacheWrite

/-- `formatUsageInfo` from `src/workflow.ts`. -/
def formatUsageInfo (usage : Usage) (modelTier : ModelTier) : Str :=
  let inputTokens := usageGet usage "input_tokens".toList
  let outputTokens := usageGet usage "output_tokens".toList
  let cacheCreationTokens := usageGet usage "cache_creation_input_tokens".toList
  let cacheReadTokens := usageGet usage "cache_read_input_tokens".toList
  let totalCost := usageTotalCost usage modelTier
  let totalTokens := inputTokens + outputTokens + cacheReadTokens + cacheCreationTokens
  let parts : List Str :=
    ["model: ".toList ++ modelTierName modelTier,
     "total: ".toList ++ toLocaleString totalTokens ++ " tokens".toList,
     "in: ".toList ++ toLocaleString inputTokens
       ++ ", out: ".toList ++ toLocaleString outputTokens]
  let parts := if cacheReadTokens > 0 || cacheCreationTokens > 0 then
      parts ++ ["cache: ".toList ++ toLocaleString cacheReadTokens
        ++ " read, ".toList ++ toLocaleString cacheCreationTokens ++ " write".toList]
    else parts
  let parts := parts ++ [['$'] ++ toFixed 4 totalCost]
  "-# ".toList ++ joinSep " · ".toList parts

/-! ## Prompt caching (`withCaching`, `markCached` in the Claude client)

The source copies each message (`{...m}`) and each block array
(`[...parts]`) before writing `cache_control`, so the caller's list is
never mutated; the embedding renders those in-place writes on copies as
functional updates. -/

/-- `{...part, cache_control: CACHE_TTL}`. -/
def setCacheControl : ContentBlock → ContentBlock
  | ContentBlock.text t _ => ContentBlock.text t true
  | ContentBlock.image d _ => ContentBlock.image d true

/-- `markCached` from the Claude client: string content becomes a single
cached text block; array content gets `cache_control` on a copy of its
last part.  (On an empty array the JavaScript index write targets
property `-1` and leaves the array's elements unchanged.) -/
def markCached (msg : Message) : Message :=
  match msg.content with
  | MessageContent.str s =>
    { msg with content := MessageContent.blocks [ContentBlock.text s true] }
  | MessageContent.blocks parts =>
    let updated := parts.dropLast ++ (parts.getLast?.map setCacheControl).toList
    { msg with content := MessageContent.blocks updated }

/-- `findLastIndex` over `(m, i)` predicates with the JavaScript `-1`
convention. -/
def findLastIndexI (p : α → Nat → Bool) (l : List α) : Int :=
  match findLastIdxI? p l with
  | some k => (k : Int)
  | none => -1

/-- `withCaching` from the Claude client: marks (1) the last user
message and (2) the last user message strictly before the last assistant
message, when distinct from (1). -/
def withCaching (messages : List Message) : List Message :=
  if messages.length == 0 then messages
  else
    let lastUser := findLastIndex (fun m => m.role == Role.user) messages
    let r1 := if lastUser ≥ 0 then updateAt messages lastUser.toNat markCached
      else messages
    let lastAssistant := findLastIndex (fun m => m.role == Role.assistant) r1
    if lastAssistant > 0 then
      let anchorUser := findLastIndexI
        (fun m i => decide ((i : Int) < lastAssistant) && (m.role == Role.user)) r1
      if anchorUser ≥ 0 && anchorUser != lastUser then
        updateAt r1 anchorUser.toNat markCached
      else r1
    else r1

/-! ## Usage merging (`mergeUsage` in the Claude client) -/

/-- JavaScript `obj[k] = v`: overwrite the field in place, or append it. -/
def setUsageKey : Usage → Str → Int → Usage
  | [], k, v => [(k, v)]
  | (k', v') :: rest, k, v =>
    if k' == k then (k, v) :: rest else (k', v') :: setUsageKey rest k v

/-- `mergeUsage` from the Claude client: sum numeric fields
key-by-key (in this embedding every field is numeric; the source
overwrites non-numeric ones). -/
def mergeUsage (a b : Usage) : Usage :=
  b.foldl (fun result kv =>
    match result.lookup kv.1 with
    | some x => setUsageKey result kv.1 (x + kv.2)
    | none => setUsageKey result kv.1 kv.2) a

/-- JavaScript object spread `{...a, ...b}`: fields of `b` overwrite
those of `a`. -/
def jsObjectAssign (a b : Usage) : Usage :=
  b.foldl (fun result kv => setUsageKey result kv.1 kv.2) a

/-! ## SSE stream reader (`readToolStream` in the Claude client)

The decoded event stream is embedded as a list of already-framed events;
lines that fail `JSON.parse` or carry an unknown `type` are the
`unparsable` constructor (the source ignores both).  The
`jsParse` oracle stands for `JSON.parse` applied to the accumulated
tool-argument string; `none` models a thrown `SyntaxError`. -/

/-- A `content_block_start` payload: `text`, `tool_use`, or any other
block type (`web_search_tool_result` etc., which the source ignores). -/
inductive StartBlock
  | text
  | toolUse (id name : Str)
  | other
deriving DecidableEq

/-- One decoded SSE event. -/
inductive SseEvent
  | contentBlockStart (b : StartBlock)
  | textDelta (s : Str)
  | inputJsonDelta (s : Str)
  | contentBlockStop
  | messageStart (usage : Usage)
  | messageDelta (usage : Usage)
  | unparsable
deriving DecidableEq

/-- The `current` partial block of the reader. -/
inductive CurrentBlock
  | text (acc : Str)
  | toolUse (id name : Str) (inputJson : Str)
deriving DecidableEq

/-- A completed content block of one round. -/
inductive StreamBlock
  | text (s : Str)
  | toolUse (id name input : Str)
deriving DecidableEq

/-- The reader state: completed blocks, the partial block, accumulated
usage, and the text forwarded to `onTextDelta`. -/
structure StreamState where
  contentBlocks : List StreamBlock
  current : Option CurrentBlock
  usage : Usage
  emitted : Str
deriving DecidableEq

/-- `"{}"`, the fallback `current.inputJson || "{}"` parses. -/
def jsonEmptyObject : Str := [Char.ofNat 123, Char.ofNat 125]

/-- `current.inputJson || "{}"`: the string handed to `JSON.parse` at
block-stop. -/
def inputJsonOrDefault (s : Str) : Str :=
  if s.isEmpty then jsonEmptyObject else s

/-- One step of `processLine` in `readToolStream`. -/
def processEvent (jsParse : Str → Option Str) (st : StreamState)
    (ev : SseEvent) : StreamState :=
  match ev with
  | SseEvent.contentBlockStart b =>
    match b with
    | StartBlock.text => { st with current := some (CurrentBlock.text []) }
    | StartBlock.toolUse id name =>
      { st with current := some (CurrentBlock.toolUse id name []) }
    | StartBlock.other => { st with current := none }
  | SseEvent.textDelta s =>
    match st.current with
    | some (CurrentBlock.text acc) =>
      { st with current := some (CurrentBlock.text (acc ++ s))
                emitted := st.emitted ++ s }
    | _ => st
  | SseEvent.inputJsonDelta s =>
    match st.current with
    | some (CurrentBlock.toolUse id name acc) =>
      { st with current := some (CurrentBlock.toolUse id name (acc ++ s)) }
    | _ => st
  | SseEvent.contentBlockStop =>
    match st.current with
    | none => st
    | some (CurrentBlock.text acc) =>
      { st with contentBlocks := st.contentBlocks ++ [StreamBlock.text acc]
                current := none }
    | some (CurrentBlock.toolUse id name acc) =>
      match jsParse (inputJsonOrDefault acc) with
      | some input =>
        { st with contentBlocks := st.contentBlocks ++ [StreamBlock.toolUse id name input]
                  current := none }
      | none => { st with current := none }
  | SseEvent.messageStart u => { st with usage := jsObjectAssign st.usage u }
  | SseEvent.messageDelta u => { st with usage := jsObjectAssign st.usage u }
  | SseEvent.unparsable => st

/-- The decoded SSE events of one complete `tool_use` content block:
`content_block_start`, the `input_json_delta`s carrying `parts`,
`content_block_stop`. -/
def toolBlockEvents (id name : Str) (parts : List Str) : List SseEvent :=
  SseEvent.contentBlockStart (StartBlock.toolUse id name)
    :: parts.map SseEvent.inputJsonDelta ++ [SseEvent.contentBlockStop]

/-- A tool call collected from one round. -/
structure ToolUse where
  id : Str
  name : Str
  input : Str
deriving DecidableEq

/-- What `readToolStream` returns for one round (plus the text it
forwarded incrementally, which `chatStream` appends to `fullText`). -/
structure StreamRound where
  toolUses : List ToolUse
  contentBlocks : List StreamBlock
  usage : Usage
  textDeltas : Str
deriving DecidableEq

/-- The initial reader state: no blocks, no partial block, empty usage,
nothing emitted. -/
def initStreamState : StreamState := ⟨[], none, [], []⟩

/-- `readToolStream` from the Claude client, over a decoded event list. -/
def readToolStream (jsParse : Str → Option Str) (events : List SseEvent) :
    StreamRound :=
  let st := events.foldl (processEvent jsParse) initStreamState
  { toolUses := st.contentBlocks.filterMap (fun b =>
      match b with
      | StreamBlock.toolUse id name input => some ⟨id, name, input⟩
      | _ => none)
    contentBlocks := st.contentBlocks
    usage := st.usage
    textDeltas := st.emitted }

/-! ## The multi-round streaming loop (`chatStream` in the Claude client)

Each round issues a request whose messages include all previous rounds'
assistant blocks and tool results, then reads one SSE stream.  The
network is abstracted as an oracle giving the `StreamRound` observed at
each round index; `hasResolver` records whether the caller supplied
`resolveTool`.  Tool results themselves only flow back into later
requests, which the oracle already accounts for. -/

/-- `MAX_ROUNDS` from the Claude client. -/
def MAX_ROUNDS : Nat := 10

/-- What `chatStream` returns (plus the number of rounds the loop ran,
made explicit for the termination statements). -/
structure ChatStreamResult where
  text : Str
  usage : Usage
  toolsUsed : List Str
  roundsExecuted : Nat
deriving DecidableEq

/-- The `for (let round = 0; round < MAX_ROUNDS; round++)` loop of
`chatStream`: accumulate text and usage, stop after a round with no tool
calls or without a resolver, otherwise record the tools used and
continue. -/
def chatStreamGo (rounds : Nat → StreamRound) (hasResolver : Bool) :
    Nat → Nat → Str → Usage → List Str → ChatStreamResult
  | 0, executed, fullText, usage, toolsUsed => ⟨fullText, usage, toolsUsed, executed⟩
  | fuel + 1, executed, fullText, usage, toolsUsed =>
    let r := rounds executed
    let fullText' := fullText ++ r.textDeltas
    let usage' := mergeUsage usage r.usage
    if r.toolUses.length == 0 || !hasResolver then
      ⟨fullText', usage', toolsUsed, executed + 1⟩
    else
      chatStreamGo rounds hasResolver fuel (executed + 1) fullText' usage'
        (toolsUsed ++ r.toolUses.map ToolUse.name)

/-- The empty-usage default of `chatStream`:
`if (Object.keys(usage).length === 0) usage = {input_tokens: 0, output_tokens: 0}`. -/
def usageOrDefault (u : Usage) : Usage :=
  if u.isEmpty then [("input_tokens".toList, 0), ("output_tokens".toList, 0)] else u

/-- `chatStream` from the Claude client: run the loop from round 0 with
empty accumulators, then apply the empty-usage default. -/
def chatStreamRun (rounds : Nat → StreamRound) (hasResolver : Bool) :
    ChatStreamResult :=
  let res := chatStreamGo rounds hasResolver MAX_ROUNDS 0 [] [] []
  { res with usage := usageOrDefault res.usage }

/-- The concatenation of the text deltas of the first `n` rounds (what
`fullText` holds after `n` rounds). -/
def roundTextConcat (rounds : Nat → StreamRound) (n : Nat) : Str :=
  ((List.range n).map (fun i => (rounds i).textDeltas)).flatten

/-- The field-by-field sum of the usage of the first `n` rounds (what
`usage` holds after `n` rounds). -/
def roundUsageMerge (rounds : Nat → StreamRound) (n : Nat) : Usage :=
  (List.range n).foldl (fun acc i => mergeUsage acc (rounds i).usage) []

/-! ## Branch resolution (modelled from the spec) -/

/-- Modelled from the spec: the fields a branch marker records
(`{ originalLogId, branchPointMessageId }`, spec §3 "Branch marker").
No implementation exists under `src/` — `src/branch.ts` only creates the
marker message. -/
structure BranchRef where
  originalLogId : Str
  branchPointMessageId : Str
deriving DecidableEq

/-- Modelled from the spec: "truncate it at the referenced branch-point
message (inclusive)" (§4.1).  When the id is absent the segment is the
whole parent context (the spec constrains only the present case). -/
def truncateAtMessage (msgs : List DiscordMessage) (mid : Str) :
    List DiscordMessage :=
  match msgs.findIdx? (fun m => m.id == mid) with
  | some i => msgs.take (i + 1)
  | none => msgs

/-- Modelled from the spec: the recursion depth cap of branch resolution
("to depth-bounded recursion (cap: 10)", §3). -/
def BRANCH_DEPTH_CAP : Nat := 10

/-- Modelled from the spec (§3 "Branch marker", §4.1 "Branch resolution
algorithm"): resolve a log's context; if its messages contain a branch
marker, recursively resolve the referenced original log, truncate that
at the branch point (inclusive), and append this log's own messages with
branch/checkpoint scaffolding excluded.  `budget` is the remaining
recursion allowance: `budget = 0` is the "depth > 10 aborts resolution
and yields an empty parent segment" case.  `fetchLog` returns a log's
messages in chronological order; `getBranchRef` reads a branch marker
off a message. -/
def resolveLogContextAux (fetchLog : Str → List DiscordMessage)
    (getBranchRef : DiscordMessage → Option BranchRef) :
    Nat → Str → List DiscordMessage
  | 0, _ => []
  | budget + 1, logId =>
    let msgs := fetchLog logId
    match msgs.findSome? getBranchRef with
    | none => msgs
    | some ref =>
      truncateAtMessage
          (resolveLogContextAux fetchLog getBranchRef budget ref.originalLogId)
          ref.branchPointMessageId
        ++ msgs.filter (fun m => (getBranchRef m).isNone && !isSummaryMarker m)

/-- Modelled from the spec: top-level branch resolution, depths 0 through
`BRANCH_DEPTH_CAP` permitted. -/
def resolveLogContext (fetchLog : Str → List DiscordMessage)
    (getBranchRef : DiscordMessage → Option BranchRef) (logId : Str) :
    List DiscordMessage :=
  resolveLogContextAux fetchLog getBranchRef (BRANCH_DEPTH_CAP + 1) logId

/-! ## Concrete fixtures

Small concrete inputs used by witnesses and counterexamples. -/

/-- A trivial attachment oracle (no fixture carries attachments). -/
def idFetch : Str → Str := fun s => s

/-- A human author. -/
def fixAlice : DiscordAuthor := ⟨"1".toList, "alice".toList, false⟩

/-- The bot author. -/
def fixBot : DiscordAuthor := ⟨"2".toList, "groupthink".toList, true⟩

/-- A plain user message. -/
def fixUserMsg (mid text : String) : DiscordMessage :=
  ⟨mid.toList, text.toList, fixAlice, [], []⟩

/-- A plain bot message. -/
def fixBotMsg (mid text : String) : DiscordMessage :=
  ⟨mid.toList, text.toList, fixBot, [], []⟩

/-- A checkpoint (summary-marker) message. -/
def fixMarkerMsg (mid : String) : DiscordMessage :=
  ⟨mid.toList, SUMMARY_MARKER, fixBot, [], []⟩

/-- An input on which `splitLongMessage` emits an empty part: 1500
spaces, a paragraph break at index 1500 (past `maxLen / 2`), then 600
`b`s; total length 2102 > 2000. -/
def splitEmptyPartInput : Str :=
  List.replicate 1500 ' ' ++ '\n' :: '\n' :: List.replicate 600 'b'

/-- A `JSON.parse` oracle that rejects everything. -/
def noParse : Str → Option Str := fun _ => none

/-- A stream round with no tool calls and the text `"hi"`. -/
def fixQuietRound : StreamRound := ⟨[], [], [], "hi".toList⟩

/-- The branch-marker reader fixture: message `b1` references log
`orig`, branch point `p2`. -/
def fixGetBranchRef : DiscordMessage → Option BranchRef :=
  fun m => if m.id == "b1".toList then
    some ⟨"orig".toList, "p2".toList⟩
  else none

/-- The original log of the branch fixture. -/
def fixParentLog : List DiscordMessage :=
  [fixUserMsg "p1" "hello", fixUserMsg "p2" "world", fixUserMsg "p3" "tail"]

/-- The branched log of the branch fixture: the marker then one message. -/
def fixBranchLog : List DiscordMessage :=
  [fixBotMsg "b1" "branch marker", fixUserMsg "b2" "branch talk"]

/-- The log store of the branch fixture. -/
def fixFetchLog : Str → List DiscordMessage :=
  fun logId => if logId == "orig".toList then fixParentLog
    else if logId == "br".toList then fixBranchLog
    else []

/-- The cache-erased view of a content block, used to state that
`withCaching` changes nothing but cache boundaries. -/
inductive PlainBlock
  | text (s : Str)
  | image (s : Str)
deriving DecidableEq

/-- Erase the cache flag of one block. -/
def plainBlock : ContentBlock → PlainBlock
  | ContentBlock.text t _ => PlainBlock.text t
  | ContentBlock.image d _ => PlainBlock.image d

/-- Erase cache flags (and the string/array representation difference)
from message content. -/
def plainBlocks : MessageContent → List PlainBlock
  | MessageContent.str s => [PlainBlock.text s]
  | MessageContent.blocks bs => bs.map plainBlock

/-- Decidable substring search (`String.prototype.includes`). -/
def infixOf (pat : Str) : Str → Bool
  | [] => pat.isEmpty
  | c :: rest => pat.isPrefixOf (c :: rest) || infixOf pat rest

/-- The cache-erased view of a message: its role and plain content. -/
def plainMsg (m : Message) : Role × List PlainBlock :=
  (m.role, plainBlocks m.content)

/-- The usage record of the cost-report scenario:
`{input_tokens: 10, output_tokens: 5}`. -/
def c9usage : Usage :=
  [("input_tokens".toList, 10), ("output_tokens".toList, 5)]

/-! ## Theorems

Everything above this point is a definition; everything below is a lemma
or a claim theorem. -/

section Lemmas

variable {p : α → Bool}

theorem findLastIdx?_eq_none_iff {l : List α} :
    findLastIdx? p l = none ↔ ∀ a ∈ l, p a = false := by
  induction l with
  | nil => simp [findLastIdx?]
  | cons a as ih =>
    simp only [findLastIdx?]
    cases h : findLastIdx? p as with
    | some k => simp only [h] at ih; simp [← ih]
    | none =>
      rw [h] at ih
      constructor
      · intro hif
        by_cases hpa : p a
        · simp [hpa] at hif
        · intro b hb
          rcases List.mem_cons.mp hb with rfl | hb
          · simpa using hpa
          · exact ih.mp rfl b hb
      · intro hall
        have hpa : p a = false := hall a (List.mem_cons_self a as)
        simp [hpa]

theorem findLastIdx?_eq_some {l : List α} {k : Nat}
    (h : findLastIdx? p l = some k) :
    ∃ a, l.get? k = some a ∧ p a = true ∧
      ∀ j b, k < j → l.get? j = some b → p b = false := by
  induction l generalizing k with
  | nil => simp [findLastIdx?] at h
  | cons a as ih =>
    simp only [findLastIdx?] at h
    cases hs : findLastIdx? p as with
    | some k' =>
      rw [hs] at h
      obtain rfl : k' + 1 = k := by simpa using h
      obtain ⟨b, hb, hpb, hafter⟩ := ih hs
      refine ⟨b, by simpa using hb, hpb, ?_⟩
      intro j c hj hc
      cases j with
      | zero => omega
      | succ j' => exact hafter j' c (by omega) (by simpa using hc)
    | none =>
      rw [hs] at h
      by_cases hpa : p a
      · simp only [hpa, if_true] at h
        obtain rfl : 0 = k := by simpa using h
        refine ⟨a, rfl, by simpa using hpa, ?_⟩
        intro j c hj hc
        cases j with
        | zero => omega
        | succ j' =>
          have := findLastIdx?_eq_none_iff.mp hs c
          exact this (List.get?_mem (by simpa using hc))
      · simp [hpa] at h

theorem findLastIdx?_eq_some_of {l : List α} {k : Nat} {a : α}
    (hget : l.get? k = some a) (hpa : p a = true)
    (hafter : ∀ j b, k < j → l.get? j = some b → p b = false) :
    findLastIdx? p l = some k := by
  cases h : findLastIdx? p l with
  | none =>
    have := findLastIdx?_eq_none_iff.mp h a (List.get?_mem hget)
    rw [this] at hpa; cases hpa
  | some k' =>
    obtain ⟨b, hb, hpb, hafter'⟩ := findLastIdx?_eq_some h
    rcases Nat.lt_trichotomy k k' with hlt | heq | hgt
    · have := hafter k' b hlt hb
      rw [this] at hpb; cases hpb
    · rw [heq]
    · have := hafter' k a hgt hget
      rw [this] at hpa; cases hpa

theorem jsStartsWith_iff_isPrefixOf {pre s : Str} :
    jsStartsWith pre s = true ↔ pre <+: s := by
  induction pre generalizing s with
  | nil => simp [jsStartsWith]
  | cons p ps ih =>
    cases s with
    | nil => simp [jsStartsWith]
    | cons c cs =>
      simp only [jsStartsWith, Bool.and_eq_true, beq_iff_eq, ih,
        List.cons_prefix_cons]

theorem trimRight_isPrefix (s : Str) : trimRight s <+: s := by
  have h : s.reverse.dropWhile isJsWs <:+ s.reverse := List.dropWhile_suffix _
  have := List.reverse_prefix.mpr (by simpa using h)
  simpa [trimRight] using this

theorem trimRight_length_le (s : Str) : (trimRight s).length ≤ s.length :=
  (trimRight_isPrefix s).length_le

theorem trimLeft_length_le (s : Str) : (trimLeft s).length ≤ s.length :=
  (List.dropWhile_suffix _).length_le

theorem jsTrim_length_le (s : Str) : (jsTrim s).length ≤ s.length :=
  le_trans (trimRight_length_le _) (trimLeft_length_le _)

theorem trimRight_eq_nil_iff {s : Str} :
    trimRight s = [] ↔ ∀ c ∈ s, isJsWs c = true := by
  simp [trimRight, List.dropWhile_eq_nil_iff]

theorem trimRight_cons_of_not_ws {a : Char} (ha : isJsWs a = false) (s : Str) :
    trimRight (a :: s) = a :: trimRight s := by
  unfold trimRight
  rw [List.reverse_cons, List.dropWhile_append]
  by_cases h : s.reverse.dropWhile isJsWs = []
  · simp [h, ha]
  · simp [h, List.isEmpty_iff]

theorem trimLeft_cons_of_not_ws {a : Char} (ha : isJsWs a = false) (s : Str) :
    trimLeft (a :: s) = a :: s := by
  simp [trimLeft, List.dropWhile_cons, ha]

theorem jsTrim_cons_of_not_ws {a : Char} (ha : isJsWs a = false) (s : Str) :
    jsTrim (a :: s) = a :: trimRight s := by
  rw [jsTrim, trimLeft_cons_of_not_ws ha, trimRight_cons_of_not_ws ha]

/-- The first character of a `jsTrim`med string is not whitespace. -/
theorem jsTrim_head_not_ws {s : Str} {c : Char}
    (h : (jsTrim s).head? = some c) : isJsWs c = false := by
  have hleft : (trimLeft s).head? = some c → isJsWs c = false := by
    intro hh
    cases hl : trimLeft s with
    | nil => rw [hl] at hh; simp at hh
    | cons x xs =>
      rw [hl] at hh
      obtain rfl : x = c := by simpa using hh
      have := List.head?_dropWhile_not isJsWs s
      rw [show s.dropWhile isJsWs = trimLeft s from rfl, hl] at this
      simpa using this
  obtain ⟨t, ht⟩ := trimRight_isPrefix (trimLeft s)
  apply hleft
  rw [← ht]
  cases htr : jsTrim s with
  | nil => rw [htr] at h; simp at h
  | cons y ys =>
    rw [htr] at h
    obtain rfl : y = c := by simpa using h
    rw [show trimRight (trimLeft s) = jsTrim s from rfl, htr]
    simp

/-- Dropping a whitespace head, `jsTrim` strictly shortens the string. -/
theorem jsTrim_length_lt_of_ws_head {a : Char} (ha : isJsWs a = true) (s : Str) :
    (jsTrim (a :: s)).length < (a :: s).length := by
  have h1 : trimLeft (a :: s) = trimLeft s := by
    simp [trimLeft, List.dropWhile_cons, ha]
  calc (jsTrim (a :: s)).length = (trimRight (trimLeft s)).length := by
        rw [jsTrim, h1]
    _ ≤ (trimLeft s).length := trimRight_length_le _
    _ ≤ s.length := trimLeft_length_le _
    _ < (a :: s).length := by simp

/-- `jsTrim` keeps a non-whitespace head and never empties such a string. -/
theorem jsTrim_cons_of_not_ws_head {a : Char} (ha : isJsWs a = false) (s : Str) :
    ∃ t, jsTrim (a :: s) = a :: t := by
  exact ⟨trimRight s, jsTrim_cons_of_not_ws ha s⟩

end Lemmas

section AssemblyLemmas

/-- A summary marker always survives the content filters: its text starts
with `"--- "`, so it trims to a nonempty string not starting with `"-#"`. -/
theorem contentBearing_of_isSummaryMarker {m : DiscordMessage}
    (h : isSummaryMarker m = true) : contentBearing m = true := by
  have hpre : SUMMARY_MARKER <+: m.content := by
    have := (Bool.and_eq_true _ _).mp h |>.2
    exact jsStartsWith_iff_isPrefixOf.mp this
  obtain ⟨u, hu⟩ := hpre
  have hmark : SUMMARY_MARKER = '-' :: '-' :: "- Summary so far ---".toList := rfl
  have hcontent : m.content = '-' :: '-' :: ("- Summary so far ---".toList ++ u) := by
    rw [← hu, hmark]; simp
  have hdash : isJsWs '-' = false := by decide
  have htrim : jsTrim m.content
      = '-' :: '-' :: trimRight ("- Summary so far ---".toList ++ u) := by
    rw [hcontent, jsTrim_cons_of_not_ws hdash, trimRight_cons_of_not_ws hdash]
  have h1 : ('#' == '-') = false := by decide
  have hns : jsStartsWith metaSentinel
      ('-' :: '-' :: trimRight ("- Summary so far ---".toList ++ u)) = false := by
    rw [show metaSentinel = ['-', '#'] from rfl]
    simp [jsStartsWith, h1]
  rw [contentBearing, htrim, hns]
  simp

/-- The two content filters compose to `contentBearing`. -/
theorem filter_filter_contentBearing (l : List DiscordMessage) :
    ((l.filter (fun m => !(jsTrim m.content).isEmpty)).filter
        (fun m => !jsStartsWith metaSentinel (jsTrim m.content)))
      = l.filter contentBearing := by
  rw [List.filter_filter]
  apply List.filter_congr
  intro m _
  rw [contentBearing, Bool.and_comm]

/-- With no summary marker in the log, selection keeps the whole log. -/
theorem llmSelectedMessages_of_no_marker {messages : List DiscordMessage}
    (h : ∀ m ∈ messages, isSummaryMarker m = false) :
    llmSelectedMessages messages = messages.filter contentBearing := by
  have hnone : findLastIdx? isSummaryMarker messages = none :=
    findLastIdx?_eq_none_iff.mpr h
  rw [llmSelectedMessages, findLastIndex, hnone]
  simpa using filter_filter_contentBearing messages

/-- With a last summary marker at index `k`, selection keeps the slice
from `k` on. -/
theorem llmSelectedMessages_of_marker {messages : List DiscordMessage} {k : Nat}
    (h : findLastIdx? isSummaryMarker messages = some k) :
    llmSelectedMessages messages = (messages.drop k).filter contentBearing := by
  rw [llmSelectedMessages, findLastIndex, h]
  have hmax : (max 0 (k : Int)).toNat = k := by omega
  rw [hmax]
  exact filter_filter_contentBearing _

/-- Appending the continuation turn never changes the first turn. -/
theorem withContinuation_head? (l : List Message) :
    (withContinuation l).head? = l.head? := by
  rw [withContinuation]
  split
  · next h =>
    cases l with
    | nil => simp at h
    | cons a as => simp
  · rfl

end AssemblyLemmas

/-- **C1.** For every message log, context assembly starts exactly at the
last checkpoint (summary) marker and includes that marker itself; with no
checkpoint marker in the log, assembly includes every content-bearing
message from the start of the log.  First conjunct: no marker — the
conversation is built from every content-bearing message of the whole
log.  Second conjunct: the last marker sits at index `k` — the
conversation is built from the slice starting at `k`, that slice starts
with the marker message, which is content-bearing, so the assembled
conversation's first turn is the marker's turn. -/
theorem assembly_starts_at_last_checkpoint (fetchText fetchImage : Str → Str)
    (messages : List DiscordMessage) :
    ((∀ m ∈ messages, isSummaryMarker m = false) →
      discordMessagesToLLMConversation fetchText fetchImage messages
        = withContinuation
            ((messages.filter contentBearing).map (msgToMessage fetchText fetchImage)))
    ∧ (∀ k, findLastIdx? isSummaryMarker messages = some k →
        ∃ mrk, messages.get? k = some mrk ∧ isSummaryMarker mrk = true
          ∧ discordMessagesToLLMConversation fetchText fetchImage messages
              = withContinuation
                  (((messages.drop k).filter contentBearing).map
                    (msgToMessage fetchText fetchImage))
          ∧ (discordMessagesToLLMConversation fetchText fetchImage messages).head?
              = some (msgToMessage fetchText fetchImage mrk)) := by
  constructor
  · intro h
    rw [discordMessagesToLLMConversation, llmSelectedMessages_of_no_marker h]
  · intro k hk
    obtain ⟨mrk, hget, hmrk, -⟩ := findLastIdx?_eq_some hk
    refine ⟨mrk, hget, hmrk, ?_, ?_⟩
    · rw [discordMessagesToLLMConversation, llmSelectedMessages_of_marker hk]
    · rw [discordMessagesToLLMConversation, withContinuation_head?,
        llmSelectedMessages_of_marker hk]
      have hlt : k < messages.length := (List.get?_eq_some.mp hget).1
      have hdrop : messages.drop k = mrk :: messages.drop (k + 1) := by
        rw [List.drop_eq_getElem_cons hlt]
        congr 1
        have := (List.get?_eq_some.mp hget).2
        simpa using this
      rw [hdrop, List.filter_cons_of_pos (contentBearing_of_isSummaryMarker hmrk)]
      simp



/-- Witness for `assembly_starts_at_last_checkpoint`: a one-message log
without a marker, and a three-message log whose last marker is at
index 1. -/
theorem assembly_starts_at_last_checkpoint_witness :
    (discordMessagesToLLMConversation idFetch idFetch [fixUserMsg "10" "hello"]
      = withContinuation
          (([fixUserMsg "10" "hello"].filter contentBearing).map
            (msgToMessage idFetch idFetch)))
    ∧ (∃ mrk,
        [fixUserMsg "10" "hello", fixMarkerMsg "11", fixUserMsg "12" "after"].get? 1
            = some mrk
          ∧ isSummaryMarker mrk = true
          ∧ discordMessagesToLLMConversation idFetch idFetch
                [fixUserMsg "10" "hello", fixMarkerMsg "11", fixUserMsg "12" "after"]
              = withContinuation
                  ((([fixUserMsg "10" "hello", fixMarkerMsg "11",
                      fixUserMsg "12" "after"].drop 1).filter contentBearing).map
                    (msgToMessage idFetch idFetch))
          ∧ (discordMessagesToLLMConversation idFetch idFetch
                [fixUserMsg "10" "hello", fixMarkerMsg "11",
                  fixUserMsg "12" "after"]).head?
              = some (msgToMessage idFetch idFetch mrk)) :=
  ⟨(assembly_starts_at_last_checkpoint idFetch idFetch [fixUserMsg "10" "hello"]).1
      (by decide),
   (assembly_starts_at_last_checkpoint idFetch idFetch
      [fixUserMsg "10" "hello", fixMarkerMsg "11", fixUserMsg "12" "after"]).2 1
      (by decide)⟩

/-- In a channel context, markers can only sit at position 0: the slice
starts at the last marker, so nothing after it is a marker. -/
theorem getChannelContext_no_marker_after_head (pf : List DiscordMessage) :
    ∀ j b, 0 < j → (getChannelContext pf).get? j = some b →
      isSummaryMarker b = false := by
  intro j b hj hget
  rw [getChannelContext] at hget
  cases h : findLastIdx? isSummaryMarker pf.reverse with
  | none =>
    rw [h] at hget
    simp only [List.drop_zero] at hget
    exact findLastIdx?_eq_none_iff.mp h b (List.get?_mem hget)
  | some k =>
    rw [h] at hget
    rw [List.get?_drop] at hget
    obtain ⟨a, -, -, hafter⟩ := findLastIdx?_eq_some h
    exact hafter (k + j) b (by omega) hget

/-- **C2 (counterexample).** Parent channel `[hi]` (one content-bearing
user message, no marker: its assembled context is `[hi]` itself), thread
containing a checkpoint marker followed by `after`.  The claim says the
assembled thread conversation is the parent's assembled context followed
by all thread messages, with no checkpoint truncation applied to the
thread portion; but the conversion re-applies checkpoint truncation over
the combined list, so the marker inside the thread cuts off the parent's
`hi` turn. -/
theorem thread_checkpoint_truncation_counterexample :
    getChannelContext [fixUserMsg "p1" "hi"] = [fixUserMsg "p1" "hi"]
    ∧ fixUserMsg "p1" "hi"
        ∈ getThreadContext (some [fixUserMsg "p1" "hi"])
            [fixUserMsg "t2" "after", fixMarkerMsg "t1"]
    ∧ contentBearing (fixUserMsg "p1" "hi") = true
    ∧ msgToMessage idFetch idFetch (fixUserMsg "p1" "hi")
        ∉ discordMessagesToLLMConversation idFetch idFetch
            (getThreadContext (some [fixUserMsg "p1" "hi"])
              [fixUserMsg "t2" "after", fixMarkerMsg "t1"]) := by
  refine ⟨by decide, by decide, by decide, by decide⟩

/-- **C2 (amended).** For every thread with a parent channel, context
collection returns the parent channel's assembled (checkpoint-truncated)
context followed by all of the thread's own messages, with no truncation
at the collection stage; and provided the thread's own messages contain
no checkpoint marker, the subsequent conversion applies no further
truncation either, so the assembled conversation is built from the whole
combined list.  (A checkpoint marker inside the thread, however, does
truncate: the conversion re-applies checkpoint truncation across the
combined list — see the counterexample.) -/
theorem thread_context_concatenation (fetchText fetchImage : Str → Str)
    (pf tf : List DiscordMessage) :
    getThreadContext (some pf) tf = getChannelContext pf ++ tf.reverse
    ∧ ((∀ m ∈ tf, isSummaryMarker m = false) →
        discordMessagesToLLMConversation fetchText fetchImage
            (getThreadContext (some pf) tf)
          = withContinuation
              (((getChannelContext pf ++ tf.reverse).filter contentBearing).map
                (msgToMessage fetchText fetchImage))) := by
  refine ⟨rfl, ?_⟩
  intro htf
  have hthread : getThreadContext (some pf) tf
      = getChannelContext pf ++ tf.reverse := rfl
  have hafter : ∀ j b, 0 < j →
      (getChannelContext pf ++ tf.reverse).get? j = some b →
      isSummaryMarker b = false := by
    intro j b hj hget
    by_cases hlt : j < (getChannelContext pf).length
    · rw [List.get?_append hlt] at hget
      exact getChannelContext_no_marker_after_head pf j b hj hget
    · have hge : (getChannelContext pf).length ≤ j := by omega
      have hget' : tf.reverse.get? (j - (getChannelContext pf).length) = some b := by
        rw [← hget, List.get?_append_right hge]
      exact htf b (List.mem_reverse.mp (List.get?_mem hget'))
  have hsel : llmSelectedMessages (getChannelContext pf ++ tf.reverse)
      = (getChannelContext pf ++ tf.reverse).filter contentBearing := by
    cases hc : (getChannelContext pf ++ tf.reverse) with
    | nil =>
      simp [llmSelectedMessages, findLastIndex, findLastIdx?]
    | cons b rest =>
      rw [← hc]
      by_cases hb : isSummaryMarker b
      · have hsome : findLastIdx? isSummaryMarker
            (getChannelContext pf ++ tf.reverse) = some 0 := by
          apply findLastIdx?_eq_some_of (a := b)
          · rw [hc]; rfl
          · exact hb
          · intro j c hj hget
            exact hafter j c hj hget
        rw [llmSelectedMessages_of_marker hsome]
        simp
      · have hnone : ∀ m ∈ (getChannelContext pf ++ tf.reverse),
            isSummaryMarker m = false := by
          intro m hm
          obtain ⟨j, hj⟩ := List.get?_of_mem hm
          cases j with
          | zero =>
            have hstep : b = m := by rw [hc] at hj; simpa using hj
            rw [← hstep]
            simpa using hb
          | succ j' => exact hafter (j' + 1) m (by omega) hj
        exact llmSelectedMessages_of_no_marker hnone
  rw [hthread, discordMessagesToLLMConversation, hsel]

/-- Witness for `thread_context_concatenation`: parent `[hi]`, thread
`[after]` with no marker. -/
theorem thread_context_concatenation_witness :
    getThreadContext (some [fixUserMsg "p1" "hi"]) [fixUserMsg "t2" "after"]
      = getChannelContext [fixUserMsg "p1" "hi"] ++ [fixUserMsg "t2" "after"].reverse
    ∧ discordMessagesToLLMConversation idFetch idFetch
          (getThreadContext (some [fixUserMsg "p1" "hi"]) [fixUserMsg "t2" "after"])
        = withContinuation
            (((getChannelContext [fixUserMsg "p1" "hi"]
                ++ [fixUserMsg "t2" "after"].reverse).filter contentBearing).map
              (msgToMessage idFetch idFetch)) :=
  ⟨(thread_context_concatenation idFetch idFetch [fixUserMsg "p1" "hi"]
      [fixUserMsg "t2" "after"]).1,
   (thread_context_concatenation idFetch idFetch [fixUserMsg "p1" "hi"]
      [fixUserMsg "t2" "after"]).2 (by decide)⟩

/-- A turn produced from a Discord message always has array (`blocks`)
content, so it is never the synthetic continuation turn, whose content
is a bare string. -/
theorem count_continuation_in_mapped (fetchText fetchImage : Str → Str)
    (l : List DiscordMessage) :
    (l.map (msgToMessage fetchText fetchImage)).count continuationTurn = 0 := by
  rw [List.count_eq_zero]
  intro hmem
  obtain ⟨m, hm, heq⟩ := List.mem_map.mp hmem
  have hcontent := congrArg Message.content heq
  simp [msgToMessage, continuationTurn] at hcontent

/-- **C4.** For every message log, assembly appends exactly one synthetic
user continuation turn when the raw conversation ends in an assistant
turn, and none otherwise: the assembled conversation contains the
continuation turn exactly once in the first case and not at all in the
second (turns mapped from real messages are never equal to it). -/
theorem continuation_turn_appended_iff (fetchText fetchImage : Str → Str)
    (messages : List DiscordMessage) :
    (discordMessagesToLLMConversation fetchText fetchImage messages).count
        continuationTurn
      = if ((llmSelectedMessages messages).map
            (msgToMessage fetchText fetchImage)).getLast?.map Message.role
          = some Role.assistant
        then 1 else 0 := by
  rw [discordMessagesToLLMConversation, withContinuation]
  have hzero := count_continuation_in_mapped fetchText fetchImage
    (llmSelectedMessages messages)
  split
  · rw [List.count_append, hzero]
    simp
  · exact hzero

/-- **C5 (counterexample).** The log consisting of one bot message
`hello` assembles to a non-empty conversation whose first turn has role
assistant: the first-turn-must-be-user invariant is not enforced (no
leading-assistant drop exists in `discordMessagesToLLMConversation`). -/
theorem first_turn_user_counterexample :
    discordMessagesToLLMConversation idFetch idFetch [fixBotMsg "m1" "hello"] ≠ []
    ∧ (discordMessagesToLLMConversation idFetch idFetch
        [fixBotMsg "m1" "hello"]).head?.map Message.role
        = some Role.assistant := by
  refine ⟨by decide, by decide⟩

/-- **C5 (amended).** Assembly applies no first-turn adjustment: the
assembled conversation's first turn is exactly the turn of the first
selected content-bearing message, whatever its role; in particular, when
that message is bot-authored the conversation begins with an assistant
turn. -/
theorem assembly_preserves_first_turn (fetchText fetchImage : Str → Str)
    (messages : List DiscordMessage) :
    (discordMessagesToLLMConversation fetchText fetchImage messages).head?
      = ((llmSelectedMessages messages).map
          (msgToMessage fetchText fetchImage)).head?
    ∧ ∀ m ms, llmSelectedMessages messages = m :: ms → m.author.bot = true →
        (discordMessagesToLLMConversation fetchText fetchImage
            messages).head?.map Message.role
          = some Role.assistant := by
  constructor
  · rw [discordMessagesToLLMConversation]
    exact withContinuation_head? _
  · intro m ms hsel hbot
    rw [discordMessagesToLLMConversation, withContinuation_head?, hsel]
    simp [msgToMessage, hbot]

/-- Witness for `assembly_preserves_first_turn`: the one-bot-message log. -/
theorem assembly_preserves_first_turn_witness :
    (discordMessagesToLLMConversation idFetch idFetch
        [fixBotMsg "m1" "hello"]).head?
      = ((llmSelectedMessages [fixBotMsg "m1" "hello"]).map
          (msgToMessage idFetch idFetch)).head?
    ∧ (discordMessagesToLLMConversation idFetch idFetch
        [fixBotMsg "m1" "hello"]).head?.map Message.role
        = some Role.assistant :=
  ⟨(assembly_preserves_first_turn idFetch idFetch [fixBotMsg "m1" "hello"]).1,
   (assembly_preserves_first_turn idFetch idFetch [fixBotMsg "m1" "hello"]).2
     (fixBotMsg "m1" "hello") [] (by decide) (by decide)⟩

/-- First-occurrence characterization of `List.findIdx?`. -/
theorem findIdx?_eq_some_of {p : α → Bool} {l : List α} {i : Nat} {a : α}
    (hget : l.get? i = some a) (hpa : p a = true)
    (hbefore : ∀ j b, j < i → l.get? j = some b → p b = false) :
    l.findIdx? p = some i := by
  induction l generalizing i with
  | nil => simp at hget
  | cons x xs ih =>
    cases i with
    | zero =>
      obtain rfl : x = a := by simpa using hget
      simp [List.findIdx?_cons, hpa]
    | succ j =>
      have hx : p x = false := hbefore 0 x (by omega) rfl
      have hxs : xs.findIdx? p = some j := by
        apply ih (by simpa using hget)
        intro j' b hj' hget'
        exact hbefore (j' + 1) b (by omega) (by simpa using hget')
      simp [List.findIdx?_cons, hx, hxs]

/-- **C3.** (Modelled from the spec; no branch-resolution code exists
under `src/`.)  Context resolution of a branched log: recursion budget 0
(depth beyond the cap of 10) aborts and yields an empty parent segment
instead of failing; at positive budget, a log whose messages carry a
branch marker resolves to the recursively-resolved original log
truncated at the branch point, followed by the log's own non-scaffolding
messages; and when the branch-point message id occurs in the resolved
parent (first at index `i`), the truncation keeps exactly the first
`i + 1` messages, ending with — hence including — the branch-point
message itself. -/
theorem branch_resolution_spec (fetchLog : Str → List DiscordMessage)
    (getBranchRef : DiscordMessage → Option BranchRef) (logId : Str) :
    resolveLogContextAux fetchLog getBranchRef 0 logId = []
    ∧ (∀ budget ref, (fetchLog logId).findSome? getBranchRef = some ref →
        resolveLogContextAux fetchLog getBranchRef (budget + 1) logId
          = truncateAtMessage
              (resolveLogContextAux fetchLog getBranchRef budget ref.originalLogId)
              ref.branchPointMessageId
            ++ (fetchLog logId).filter
                (fun m => (getBranchRef m).isNone && !isSummaryMarker m))
    ∧ (∀ (parent : List DiscordMessage) (mid : Str) (i : Nat) (a : DiscordMessage),
        parent.get? i = some a → (a.id == mid) = true →
        (∀ j b, j < i → parent.get? j = some b → (b.id == mid) = false) →
        truncateAtMessage parent mid = parent.take (i + 1)
          ∧ (truncateAtMessage parent mid).getLast? = some a) := by
  refine ⟨rfl, ?_, ?_⟩
  · intro budget ref h
    simp only [resolveLogContextAux, h]
  · intro parent mid i a hget hpa hbefore
    have hidx : parent.findIdx? (fun m => m.id == mid) = some i :=
      findIdx?_eq_some_of hget hpa hbefore
    have htr : truncateAtMessage parent mid = parent.take (i + 1) := by
      rw [truncateAtMessage, hidx]
    refine ⟨htr, ?_⟩
    rw [htr]
    have hlen : i < parent.length := (List.get?_eq_some.mp hget).1
    have hlen' : (parent.take (i + 1)).length = i + 1 := by
      simp [List.length_take]
      omega
    rw [List.getLast?_eq_get?, hlen']
    simpa [List.get?_take (by omega : i < i + 1)] using hget

/-- Witness for `branch_resolution_spec`: a two-log store where log `br`
carries a marker referencing log `orig` with branch point `p2` (the
second of three messages). -/
theorem branch_resolution_spec_witness :
    resolveLogContextAux fixFetchLog fixGetBranchRef 0 "br".toList = []
    ∧ resolveLogContextAux fixFetchLog fixGetBranchRef (BRANCH_DEPTH_CAP + 1)
          "br".toList
        = truncateAtMessage
            (resolveLogContextAux fixFetchLog fixGetBranchRef BRANCH_DEPTH_CAP
              "orig".toList)
            "p2".toList
          ++ (fixFetchLog "br".toList).filter
              (fun m => (fixGetBranchRef m).isNone && !isSummaryMarker m)
    ∧ truncateAtMessage fixParentLog "p2".toList = fixParentLog.take 2
    ∧ (truncateAtMessage fixParentLog "p2".toList).getLast?
        = some (fixUserMsg "p2" "world") := by
  have h := branch_resolution_spec fixFetchLog fixGetBranchRef "br".toList
  have htr := h.2.2 fixParentLog "p2".toList 1 (fixUserMsg "p2" "world")
    (by decide) (by decide)
    (by
      intro j b hj hget
      have hj0 : j = 0 := by omega
      subst hj0
      have hb : fixUserMsg "p1" "hello" = b := by
        simpa [fixParentLog] using hget
      rw [← hb]
      decide)
  exact ⟨h.1, h.2.1 BRANCH_DEPTH_CAP ⟨"orig".toList, "p2".toList⟩ (by decide),
    htr.1, htr.2⟩

/-- `setCacheControl` only touches the cache flag. -/
theorem plainBlock_setCacheControl (b : ContentBlock) :
    plainBlock (setCacheControl b) = plainBlock b := by
  cases b <;> rfl

/-- `markCached` only adds cache boundaries: the cache-erased view of a
message is unchanged. -/
theorem plainMsg_markCached (m : Message) : plainMsg (markCached m) = plainMsg m := by
  cases m with
  | mk role content =>
    cases content with
    | str s => rfl
    | blocks parts =>
      simp only [markCached, plainMsg, plainBlocks]
      cases hlast : parts.getLast? with
      | none =>
        have hnil : parts = [] := by
          cases parts with
          | nil => rfl
          | cons x xs => simp at hlast
        subst hnil
        rfl
      | some b =>
        have hne : parts ≠ [] := by
          intro h
          rw [h] at hlast
          simp at hlast
        have hb : parts.getLast hne = b := by
          rw [List.getLast?_eq_getLast parts hne] at hlast
          simpa using hlast
        have hsplit : parts.dropLast ++ [b] = parts := by
          rw [← hb]
          exact List.dropLast_append_getLast hne
        have h1 : (Option.map setCacheControl (some b)).toList
            = [setCacheControl b] := rfl
        rw [h1, List.map_append]
        simp only [List.map_cons, List.map_nil, plainBlock_setCacheControl]
        rw [show [plainBlock b] = [b].map plainBlock from rfl,
          ← List.map_append, hsplit]

/-- An index update with a view-preserving function preserves the mapped
view of the whole list. -/
theorem updateAt_map_invariant {f : α → α} (g : α → β)
    (hfg : ∀ a, g (f a) = g a) (l : List α) (i : Nat) :
    (updateAt l i f).map g = l.map g := by
  induction l generalizing i with
  | nil => rfl
  | cons x xs ih =>
    cases i with
    | zero => simp [updateAt, hfg]
    | succ j =>
      cases h : xs[j]? with
      | none => simp [updateAt, h]
      | some a =>
        have hstep : updateAt (x :: xs) (j + 1) f = x :: updateAt xs j f := by
          simp [updateAt, h]
        rw [hstep]
        simp [ih]

/-- **C10.** `withCaching` never modifies its input's conversational
content: on the empty list it returns that list unchanged with no
boundaries marked, and in general its output agrees with its input
message-for-message up to cache boundaries (roles and all text/image
payloads are preserved; the source only writes `cache_control` on
spread-copies, rendered here as functional updates). -/
theorem withCaching_frame (messages : List Message) :
    withCaching [] = ([] : List Message)
    ∧ (withCaching messages).map plainMsg = messages.map plainMsg := by
  have hup : ∀ (l : List Message) (i : Nat),
      (updateAt l i markCached).map plainMsg = l.map plainMsg :=
    updateAt_map_invariant plainMsg plainMsg_markCached
  refine ⟨rfl, ?_⟩
  simp only [withCaching]
  split_ifs <;> simp [hup]

/-- **C9.** For usage `{input_tokens: 10, output_tokens: 5}` at tier
sonnet, the cost report contains the text `in: 10, out: 5`; the computed
dollar figure equals `10/1,000,000 × $3 + 5/1,000,000 × $15`, is
strictly positive, and appears in the report formatted to four decimal
places (as `$0.0001`). -/
theorem usage_report_scenario :
    infixOf "in: 10, out: 5".toList (formatUsageInfo c9usage ModelTier.sonnet) = true
    ∧ usageTotalCost c9usage ModelTier.sonnet
        = (10 / 1000000 : ℚ) * 3 + (5 / 1000000 : ℚ) * 15
    ∧ 0 < usageTotalCost c9usage ModelTier.sonnet
    ∧ toFixed 4 (usageTotalCost c9usage ModelTier.sonnet) = "0.0001".toList
    ∧ infixOf ('$' :: toFixed 4 (usageTotalCost c9usage ModelTier.sonnet))
        (formatUsageInfo c9usage ModelTier.sonnet) = true := by
  have h1 : usageGet c9usage "input_tokens".toList = 10 := by decide
  have h2 : usageGet c9usage "output_tokens".toList = 5 := by decide
  have h3 : usageGet c9usage "cache_read_input_tokens".toList = 0 := by decide
  have h4 : usageGet c9usage "cache_creation_input_tokens".toList = 0 := by decide
  have hp : PRICING ModelTier.sonnet = ⟨3, 15, 3/10, 6⟩ := rfl
  have hcost : usageTotalCost c9usage ModelTier.sonnet = 21 / 200000 := by
    simp only [usageTotalCost, h1, h2, h3, h4, hp]
    norm_num
  have habs : |(21 / 200000 : ℚ)| = 21 / 200000 := by
    rw [abs_of_nonneg]
    norm_num
  have hval : (21 / 200000 : ℚ) * (10 : ℚ) ^ 4 + 1 / 2 = 31 / 20 := by norm_num
  have hfl : (⌊(31 : ℚ) / 20⌋ : Int) = 1 := by
    rw [Int.floor_eq_iff]
    norm_num
  have htf : toFixed 4 (21 / 200000 : ℚ) = "0.0001".toList := by
    simp only [toFixed, habs, hval, hfl]
    rw [if_neg (by norm_num : ¬ (21 / 200000 : ℚ) < 0)]
    decide
  have hreport : formatUsageInfo c9usage ModelTier.sonnet
      = "-# model: sonnet · total: 15 tokens · in: 10, out: 5 · $0.0001".toList := by
    simp only [formatUsageInfo, hcost, htf]
    decide
  refine ⟨?_, ?_, ?_, ?_, ?_⟩
  · rw [hreport]
    decide
  · rw [hcost]
    norm_num
  · rw [hcost]
    norm_num
  · rw [hcost]
    exact htf
  · rw [hreport, hcost, htf]
    decide

/-- Unfolding the loop at a stopping round (no tool calls, or no
resolver). -/
theorem chatStreamGo_stop (rounds : Nat → StreamRound) (hasResolver : Bool)
    (fuel executed : Nat) (ft : Str) (u : Usage) (tu : List Str)
    (hcond : ((rounds executed).toolUses.length == 0 || !hasResolver) = true) :
    chatStreamGo rounds hasResolver (fuel + 1) executed ft u tu
      = ⟨ft ++ (rounds executed).textDeltas,
         mergeUsage u (rounds executed).usage, tu, executed + 1⟩ := by
  simp only [chatStreamGo, hcond, if_true]

/-- Unfolding the loop at a continuing round (tool calls present and a
resolver supplied). -/
theorem chatStreamGo_continue (rounds : Nat → StreamRound)
    (fuel executed : Nat) (ft : Str) (u : Usage) (tu : List Str)
    (hne : (rounds executed).toolUses ≠ []) :
    chatStreamGo rounds true (fuel + 1) executed ft u tu
      = chatStreamGo rounds true fuel (executed + 1)
          (ft ++ (rounds executed).textDeltas)
          (mergeUsage u (rounds executed).usage)
          (tu ++ (rounds executed).toolUses.map ToolUse.name) := by
  have hcond : ((rounds executed).toolUses.length == 0 || !true) = false := by
    simp [List.length_eq_zero, hne]
  simp only [chatStreamGo, hcond]
  simp

/-- The loop never executes more rounds than it has fuel. -/
theorem chatStreamGo_le (rounds : Nat → StreamRound) (hasResolver : Bool) :
    ∀ (fuel executed : Nat) (ft : Str) (u : Usage) (tu : List Str),
      (chatStreamGo rounds hasResolver fuel executed ft u tu).roundsExecuted
        ≤ executed + fuel := by
  intro fuel
  induction fuel with
  | zero =>
    intro executed ft u tu
    simp [chatStreamGo]
  | succ f ih =>
    intro executed ft u tu
    simp only [chatStreamGo]
    split
    · simp
    · refine le_trans (ih (executed + 1) _ _ _) (by omega)

/-- If the first `k` rounds request tools and round `k` requests none,
the loop (with a resolver) runs exactly `k + 1` rounds and accumulates
their texts and usage. -/
theorem chatStreamGo_stops_at (rounds : Nat → StreamRound) :
    ∀ (k fuel executed : Nat) (ft : Str) (u : Usage) (tu : List Str),
      k < fuel →
      (∀ j, j < k → (rounds (executed + j)).toolUses ≠ []) →
      (rounds (executed + k)).toolUses = [] →
      (chatStreamGo rounds true fuel executed ft u tu).roundsExecuted
          = executed + k + 1
      ∧ (chatStreamGo rounds true fuel executed ft u tu).text
          = ft ++ ((List.range (k + 1)).map
              (fun i => (rounds (executed + i)).textDeltas)).flatten
      ∧ (chatStreamGo rounds true fuel executed ft u tu).usage
          = (List.range (k + 1)).foldl
              (fun acc i => mergeUsage acc (rounds (executed + i)).usage) u := by
  intro k
  induction k with
  | zero =>
    intro fuel executed ft u tu hfuel hbefore hstop
    obtain ⟨f, rfl⟩ : ∃ f, fuel = f + 1 := ⟨fuel - 1, by omega⟩
    rw [Nat.add_zero] at hstop
    have hcond : ((rounds executed).toolUses.length == 0 || !true) = true := by
      simp [hstop]
    rw [chatStreamGo_stop rounds true f executed ft u tu hcond]
    refine ⟨rfl, ?_, ?_⟩
    · simp [show List.range 1 = [0] from rfl]
    · simp [show List.range 1 = [0] from rfl]
  | succ k ih =>
    intro fuel executed ft u tu hfuel hbefore hstop
    obtain ⟨f, rfl⟩ : ∃ f, fuel = f + 1 := ⟨fuel - 1, by omega⟩
    have hne : (rounds executed).toolUses ≠ [] := by
      have h0 := hbefore 0 (by omega)
      simpa using h0
    rw [chatStreamGo_continue rounds f executed ft u tu hne]
    have hbefore' : ∀ j, j < k → (rounds (executed + 1 + j)).toolUses ≠ [] := by
      intro j hj
      have hx := hbefore (j + 1) (by omega)
      have harith : executed + (j + 1) = executed + 1 + j := by omega
      rwa [harith] at hx
    have hstop' : (rounds (executed + 1 + k)).toolUses = [] := by
      have harith : executed + (k + 1) = executed + 1 + k := by omega
      rwa [harith] at hstop
    obtain ⟨hrounds, htext, husage⟩ := ih f (executed + 1)
      (ft ++ (rounds executed).textDeltas)
      (mergeUsage u (rounds executed).usage)
      (tu ++ (rounds executed).toolUses.map ToolUse.name)
      (by omega) hbefore' hstop'
    refine ⟨?_, ?_, ?_⟩
    · rw [hrounds]
      omega
    · rw [htext, List.append_assoc]
      congr 1
      conv_rhs => rw [List.range_succ_eq_map, List.map_cons, List.flatten_cons,
        List.map_map]
      congr 1
      congr 1
      apply List.map_congr_left
      intro i hi
      simp only [Function.comp_apply]
      congr 2
      omega
    · rw [husage]
      conv_rhs => rw [List.range_succ_eq_map, List.foldl_cons, List.foldl_map]
      congr 1
      funext acc j
      have harith : executed + 1 + j = executed + j.succ := by omega
      rw [harith]

/-- **C6.** The multi-round tool-use loop of `chatStream` executes at
most `MAX_ROUNDS = 10` rounds; with no resolver supplied it returns
after the first round with that round's text and usage; and with a
resolver, as soon as a round completes with zero tool calls requested
(all earlier rounds having requested some), it terminates right after
that round, returning the accumulated text and the field-wise sum of the
rounds' usage (with the empty-usage default applied). -/
theorem stream_loop_bounded_and_early_stop (rounds : Nat → StreamRound)
    (hasResolver : Bool) :
    (chatStreamRun rounds hasResolver).roundsExecuted ≤ MAX_ROUNDS
    ∧ (hasResolver = false →
        (chatStreamRun rounds hasResolver).roundsExecuted = 1
        ∧ (chatStreamRun rounds hasResolver).text = (rounds 0).textDeltas
        ∧ (chatStreamRun rounds hasResolver).usage
            = usageOrDefault (roundUsageMerge rounds 1))
    ∧ (∀ k, hasResolver = true → k < MAX_ROUNDS →
        (∀ j, j < k → (rounds j).toolUses ≠ []) →
        (rounds k).toolUses = [] →
        (chatStreamRun rounds hasResolver).roundsExecuted = k + 1
        ∧ (chatStreamRun rounds hasResolver).text = roundTextConcat rounds (k + 1)
        ∧ (chatStreamRun rounds hasResolver).usage
            = usageOrDefault (roundUsageMerge rounds (k + 1))) := by
  have hr1 : ∀ b, (chatStreamRun rounds b).roundsExecuted
      = (chatStreamGo rounds b MAX_ROUNDS 0 [] [] []).roundsExecuted := fun _ => rfl
  have hr2 : ∀ b, (chatStreamRun rounds b).text
      = (chatStreamGo rounds b MAX_ROUNDS 0 [] [] []).text := fun _ => rfl
  have hr3 : ∀ b, (chatStreamRun rounds b).usage
      = usageOrDefault (chatStreamGo rounds b MAX_ROUNDS 0 [] [] []).usage :=
    fun _ => rfl
  refine ⟨?_, ?_, ?_⟩
  · rw [hr1]
    simpa using chatStreamGo_le rounds hasResolver MAX_ROUNDS 0 [] [] []
  · intro hres
    subst hres
    have hcond : ((rounds 0).toolUses.length == 0 || !false) = true := by simp
    have hstop := chatStreamGo_stop rounds false 9 0 [] [] [] hcond
    rw [show MAX_ROUNDS = 9 + 1 from rfl] at hr1 hr2 hr3
    refine ⟨?_, ?_, ?_⟩
    · rw [hr1, hstop]
    · rw [hr2, hstop]
      rfl
    · rw [hr3, hstop]
      congr 1
  · intro k hres hk hbefore hstop
    subst hres
    obtain ⟨hrounds, htext, husage⟩ := chatStreamGo_stops_at rounds k MAX_ROUNDS 0
      [] [] [] hk (by simpa using hbefore) (by simpa using hstop)
    refine ⟨?_, ?_, ?_⟩
    · rw [hr1, hrounds]
      omega
    · rw [hr2, htext, roundTextConcat]
      simp
    · rw [hr3, husage, roundUsageMerge]
      simp

/-- Witness for `stream_loop_bounded_and_early_stop`: a constant oracle
whose every round requests no tools, with and without a resolver. -/
theorem stream_loop_bounded_and_early_stop_witness :
    (chatStreamRun (fun _ => fixQuietRound) true).roundsExecuted ≤ MAX_ROUNDS
    ∧ ((chatStreamRun (fun _ => fixQuietRound) false).roundsExecuted = 1
        ∧ (chatStreamRun (fun _ => fixQuietRound) false).text
            = ((fun _ => fixQuietRound) 0).textDeltas
        ∧ (chatStreamRun (fun _ => fixQuietRound) false).usage
            = usageOrDefault (roundUsageMerge (fun _ => fixQuietRound) 1))
    ∧ ((chatStreamRun (fun _ => fixQuietRound) true).roundsExecuted = 0 + 1
        ∧ (chatStreamRun (fun _ => fixQuietRound) true).text
            = roundTextConcat (fun _ => fixQuietRound) (0 + 1)
        ∧ (chatStreamRun (fun _ => fixQuietRound) true).usage
            = usageOrDefault (roundUsageMerge (fun _ => fixQuietRound) (0 + 1))) :=
  ⟨(stream_loop_bounded_and_early_stop (fun _ => fixQuietRound) true).1,
   (stream_loop_bounded_and_early_stop (fun _ => fixQuietRound) false).2.1 rfl,
   (stream_loop_bounded_and_early_stop (fun _ => fixQuietRound) true).2.2 0 rfl
     (by decide) (fun j hj => absurd hj (Nat.not_lt_zero j)) rfl⟩

/-- JSON-argument deltas accumulate into the current tool_use block. -/
theorem foldl_inputJsonDeltas (jsParse : Str → Option Str) (st : StreamState)
    (id name : Str) (parts : List Str) :
    ∀ acc : Str,
      List.foldl (processEvent jsParse)
          { st with current := some (CurrentBlock.toolUse id name acc) }
          (parts.map SseEvent.inputJsonDelta)
        = { st with current := some (CurrentBlock.toolUse id name (acc ++ parts.flatten)) } := by
  induction parts with
  | nil =>
    intro acc
    simp
  | cons p ps ih =>
    intro acc
    simp only [List.map_cons, List.foldl_cons, processEvent]
    rw [ih (acc ++ p)]
    simp

/-- **C7.** A streamed `tool_use` block whose accumulated JSON argument
string fails to parse at block-stop is silently dropped: processing the
block's events only clears the partial-block register, the dropped call
appears neither among the round's content blocks nor among its tool
calls, and the surrounding stream is read exactly as if the block had
been an ignored block — the round continues normally. -/
theorem malformed_tool_json_dropped (jsParse : Str → Option Str)
    (st : StreamState) (id name : Str) (parts : List Str)
    (hbad : jsParse (inputJsonOrDefault parts.flatten) = none) :
    List.foldl (processEvent jsParse) st (toolBlockEvents id name parts)
      = { st with current := none }
    ∧ (∀ pre post,
        readToolStream jsParse (pre ++ toolBlockEvents id name parts ++ post)
          = readToolStream jsParse
              (pre ++ [SseEvent.contentBlockStart StartBlock.other,
                       SseEvent.contentBlockStop] ++ post))
    ∧ (readToolStream jsParse (toolBlockEvents id name parts)).toolUses = []
    ∧ (readToolStream jsParse (toolBlockEvents id name parts)).contentBlocks = [] := by
  have hmid : ∀ s : StreamState,
      List.foldl (processEvent jsParse) s (toolBlockEvents id name parts)
        = { s with current := none } := by
    intro s
    rw [toolBlockEvents, List.foldl_append]
    simp only [List.foldl_cons, List.foldl_nil]
    rw [show processEvent jsParse s
          (SseEvent.contentBlockStart (StartBlock.toolUse id name))
        = { s with current := some (CurrentBlock.toolUse id name []) } from rfl]
    rw [foldl_inputJsonDeltas jsParse s id name parts []]
    simp [processEvent, hbad]
  refine ⟨hmid st, ?_, ?_, ?_⟩
  · intro pre post
    have hstates : List.foldl (processEvent jsParse) initStreamState
          (pre ++ toolBlockEvents id name parts ++ post)
        = List.foldl (processEvent jsParse) initStreamState
            (pre ++ [SseEvent.contentBlockStart StartBlock.other,
                     SseEvent.contentBlockStop] ++ post) := by
      rw [List.foldl_append, List.foldl_append, List.foldl_append,
        List.foldl_append, hmid]
      rfl
    rw [readToolStream, readToolStream, hstates]
  · rw [readToolStream, hmid initStreamState]
    rfl
  · rw [readToolStream, hmid initStreamState]
    rfl

/-- Witness for `malformed_tool_json_dropped`: an always-failing parser
and a block with one delta `"no"`. -/
theorem malformed_tool_json_dropped_witness :
    List.foldl (processEvent noParse) initStreamState
        (toolBlockEvents "t1".toList "calc".toList ["no".toList])
      = { initStreamState with current := none }
    ∧ readToolStream noParse
          ([] ++ toolBlockEvents "t1".toList "calc".toList ["no".toList] ++ [])
        = readToolStream noParse
            ([] ++ [SseEvent.contentBlockStart StartBlock.other,
                    SseEvent.contentBlockStop] ++ [])
    ∧ (readToolStream noParse
        (toolBlockEvents "t1".toList "calc".toList ["no".toList])).toolUses = []
    ∧ (readToolStream noParse
        (toolBlockEvents "t1".toList "calc".toList ["no".toList])).contentBlocks
        = [] := by
  have h := malformed_tool_json_dropped noParse initStreamState
    "t1".toList "calc".toList ["no".toList] rfl
  exact ⟨h.1, h.2.1 [] [], h.2.2.1, h.2.2.2⟩

/-- Characterization of the `lastIndexOf` scan: it returns either the
running best or a later hit, a hit being a position where `search`
occurs, reached within the scan's fuel. -/
theorem jsLastIndexOfAux_spec (search : Str) :
    ∀ (fuel : Nat) (suffix : Str) (i : Nat) (best : Int),
      jsLastIndexOfAux search fuel suffix i best = best
      ∨ ∃ j : Nat, i ≤ j ∧ (j : Int) + 1 ≤ (i : Int) + fuel
          ∧ jsLastIndexOfAux search fuel suffix i best = (j : Int)
          ∧ search.isPrefixOf (suffix.drop (j - i)) = true := by
  intro fuel
  induction fuel with
  | zero =>
    intro suffix i best
    left
    rfl
  | succ f ih =>
    intro suffix i best
    by_cases hpre : search.isPrefixOf suffix = true
    · have hstep : jsLastIndexOfAux search (f + 1) suffix i best
          = jsLastIndexOfAux search f suffix.tail (i + 1) (i : Int) := by
        simp only [jsLastIndexOfAux, hpre, if_true]
      rcases ih suffix.tail (i + 1) (i : Int) with h | ⟨j, hij, hjf, hres, hpre'⟩
      · right
        refine ⟨i, le_refl i, by push_cast; omega, by rw [hstep, h], ?_⟩
        simpa [Nat.sub_self] using hpre
      · right
        refine ⟨j, by omega, by push_cast at hjf ⊢; omega, by rw [hstep, hres], ?_⟩
        have hdrop : suffix.tail.drop (j - (i + 1)) = suffix.drop (j - i) := by
          rw [← List.drop_one, List.drop_drop]
          congr 1
          omega
        rwa [hdrop] at hpre'
    · have hpre' : search.isPrefixOf suffix = false := Bool.eq_false_iff.mpr hpre
      have hstep : jsLastIndexOfAux search (f + 1) suffix i best
          = jsLastIndexOfAux search f suffix.tail (i + 1) best := by
        simp [jsLastIndexOfAux, hpre']
      rcases ih suffix.tail (i + 1) best with h | ⟨j, hij, hjf, hres, hp⟩
      · left
        rw [hstep, h]
      · right
        refine ⟨j, by omega, by push_cast at hjf ⊢; omega, by rw [hstep, hres], ?_⟩
        have hdrop : suffix.tail.drop (j - (i + 1)) = suffix.drop (j - i) := by
          rw [← List.drop_one, List.drop_drop]
          congr 1
          omega
        rwa [hdrop] at hp

/-- `lastIndexOf(search, fromIndex)` never exceeds `fromIndex`. -/
theorem jsLastIndexOf_le_fromIndex (s search : Str) (fromIndex : Nat) :
    jsLastIndexOf s search fromIndex ≤ (fromIndex : Int) := by
  have hmin : min fromIndex s.length ≤ fromIndex := Nat.min_le_left _ _
  rcases jsLastIndexOfAux_spec search (min fromIndex s.length + 1) s 0 (-1) with
    h | ⟨j, -, hjf, hres, -⟩
  · rw [jsLastIndexOf, h]
    omega
  · rw [jsLastIndexOf, hres]
    push_cast at hjf
    omega

/-- `lastIndexOf` never returns below `-1`. -/
theorem jsLastIndexOf_ge (s search : Str) (fromIndex : Nat) :
    -1 ≤ jsLastIndexOf s search fromIndex := by
  rcases jsLastIndexOfAux_spec search (min fromIndex s.length + 1) s 0 (-1) with
    h | ⟨j, -, -, hres, -⟩
  · rw [jsLastIndexOf, h]
  · rw [jsLastIndexOf, hres]
    omega

/-- A `lastIndexOf` hit at position 0 is an occurrence at the start. -/
theorem jsLastIndexOf_eq_zero_prefix {s search : Str} {fromIndex : Nat}
    (h : jsLastIndexOf s search fromIndex = 0) :
    search.isPrefixOf s = true := by
  rcases jsLastIndexOfAux_spec search (min fromIndex s.length + 1) s 0 (-1) with
    h' | ⟨j, -, -, hres, hp⟩
  · rw [jsLastIndexOf, h'] at h
    omega
  · rw [jsLastIndexOf, hres] at h
    obtain rfl : j = 0 := by omega
    simpa using hp

/-- A sentence-end match inside a string is no longer than the string. -/
theorem jsSentenceMatchLen_le {s : Str} {len : Nat}
    (h : jsSentenceMatchLen s = some len) : len ≤ s.length := by
  rw [jsSentenceMatchLen] at h
  cases hh : ((List.range s.length).filterMap
      (fun p => (sentenceMatchLenAt s p).map (fun len => (p, len)))).head? with
  | none => rw [hh] at h; simp at h
  | some pair =>
    rw [hh] at h
    obtain rfl : pair.2 = len := by simpa using h
    have hmem : pair ∈ (List.range s.length).filterMap
        (fun p => (sentenceMatchLenAt s p).map (fun len => (p, len))) :=
      List.mem_of_mem_head? (by rw [hh]; rfl)
    obtain ⟨p, -, hsome⟩ := List.mem_filterMap.mp hmem
    cases hmat : sentenceMatchLenAt s p with
    | none => rw [hmat] at hsome; simp at hsome
    | some l =>
      rw [hmat] at hsome
      have hpair : (p, l) = pair := by simpa using hsome
      rw [sentenceMatchLenAt] at hmat
      cases hlast : ((List.range s.length).filter (fun i =>
          decide (p ≤ i) && decide (i + 1 < s.length)
            && ((s.drop p).take (i - p)).all isDotChar
            && isSentenceEnd (s.getD i ' ') && isJsWs (s.getD (i + 1) ' '))).getLast? with
      | none => rw [hlast] at hmat; simp at hmat
      | some i =>
        rw [hlast] at hmat
        obtain rfl : i + 2 - p = l := by simpa using hmat
        have hmemLast : i ∈ ((List.range s.length).filter (fun i =>
            decide (p ≤ i) && decide (i + 1 < s.length)
              && ((s.drop p).take (i - p)).all isDotChar
              && isSentenceEnd (s.getD i ' ')
              && isJsWs (s.getD (i + 1) ' '))).getLast? := by
          rw [hlast]; rfl
        have himem := List.mem_of_mem_getLast? hmemLast
        have hpred := List.of_mem_filter himem
        have hi1 : i + 1 < s.length := by
          simp only [Bool.and_eq_true, decide_eq_true_eq] at hpred
          exact hpred.1.1.1.2
        have : pair.2 = i + 2 - p := by rw [← hpair]
        omega

/-- The sentence candidate is `-1` or at most `maxLen`. -/
theorem sentenceSplitIndex_le (remaining : Str) (maxLen : Nat) :
    sentenceSplitIndex remaining maxLen ≤ (maxLen : Int) := by
  cases h : jsSentenceMatchLen (remaining.take maxLen) with
  | none =>
    rw [sentenceSplitIndex, h]
    show (-1 : Int) ≤ (maxLen : Int)
    omega
  | some len =>
    rw [sentenceSplitIndex, h]
    show (len : Int) ≤ (maxLen : Int)
    have hle := jsSentenceMatchLen_le h
    have htake : (remaining.take maxLen).length ≤ maxLen := by
      rw [List.length_take]
      omega
    omega

/-- The chosen split position never exceeds `maxLen`. -/
theorem computeSplitIndex_le (remaining : Str) (maxLen : Nat) :
    computeSplitIndex remaining maxLen ≤ (maxLen : Int) := by
  simp only [computeSplitIndex]
  split_ifs <;>
    first
      | exact le_refl _
      | exact jsLastIndexOf_le_fromIndex _ _ _
      | exact sentenceSplitIndex_le _ _

/-- At the default budget, a split position at or below zero can only
come from the space fallback hitting position 0, so the string starts
with a space. -/
theorem computeSplitIndex_le_zero_head {remaining : Str}
    (h : computeSplitIndex remaining 2000 ≤ 0) : remaining.head? = some ' ' := by
  revert h
  simp only [computeSplitIndex]
  split_ifs <;> intro h <;>
    first
    | (exfalso; omega)
    | (have hge := jsLastIndexOf_ge remaining [' '] 2000
       have hzero : jsLastIndexOf remaining [' '] 2000 = 0 := by omega
       have hpre := jsLastIndexOf_eq_zero_prefix hzero
       cases remaining with
       | nil => simp [List.isPrefixOf] at hpre
       | cons c rest =>
         simp only [List.isPrefixOf, Bool.and_eq_true, beq_iff_eq] at hpre
         rw [show c = ' ' from hpre.1.symm]
         rfl)

/-- Every part `splitLongMessage` emits fits the length budget. -/
theorem splitLongMessageGo_length_le (maxLen : Nat) :
    ∀ (fuel : Nat) (text : Str),
      ∀ part ∈ splitLongMessageGo maxLen fuel text, part.length ≤ maxLen := by
  intro fuel
  induction fuel with
  | zero =>
    intro text part hp
    simp [splitLongMessageGo] at hp
  | succ f ih =>
    intro text part hp
    simp only [splitLongMessageGo] at hp
    by_cases hlen : text.length > maxLen
    · rw [if_pos hlen] at hp
      rcases List.mem_cons.mp hp with rfl | hp'
      · have hk : ((computeSplitIndex text maxLen).toNat : Int) ≤ (maxLen : Int) := by
          have h1 := computeSplitIndex_le text maxLen
          omega
        calc (jsTrim (text.take (computeSplitIndex text maxLen).toNat)).length
            ≤ (text.take (computeSplitIndex text maxLen).toNat).length :=
              jsTrim_length_le _
          _ ≤ (computeSplitIndex text maxLen).toNat := by
              simp [List.length_take]
          _ ≤ maxLen := by omega
      · exact ih _ part hp'
    · rw [if_neg hlen] at hp
      by_cases h0 : text.length > 0
      · rw [if_pos h0] at hp
        have : part = text := by simpa using hp
        subst this
        omega
      · rw [if_neg h0] at hp
        simp at hp

/-- With a non-whitespace first character, every part `splitLongMessage`
emits at the default budget is nonempty. -/
theorem splitLongMessageGo_ne_nil :
    ∀ (fuel : Nat) (text : Str),
      (∀ c, text.head? = some c → isJsWs c = false) →
      ∀ part ∈ splitLongMessageGo 2000 fuel text, part ≠ [] := by
  intro fuel
  induction fuel with
  | zero =>
    intro text hhead part hp
    simp [splitLongMessageGo] at hp
  | succ f ih =>
    intro text hhead part hp
    simp only [splitLongMessageGo] at hp
    by_cases hlen : text.length > 2000
    · rw [if_pos hlen] at hp
      have htne : text ≠ [] := by
        intro hnil
        rw [hnil] at hlen
        simp at hlen
      obtain ⟨c, rest, rfl⟩ : ∃ c rest, text = c :: rest := by
        cases text with
        | nil => exact absurd rfl htne
        | cons c rest => exact ⟨c, rest, rfl⟩
      have hcws : isJsWs c = false := hhead c rfl
      have hkpos : 1 ≤ computeSplitIndex (c :: rest) 2000 := by
        by_contra hcon
        have h0 : computeSplitIndex (c :: rest) 2000 ≤ 0 := by omega
        have := computeSplitIndex_le_zero_head h0
        have hc : c = ' ' := by simpa using this
        rw [hc] at hcws
        simp [isJsWs] at hcws
      rcases List.mem_cons.mp hp with rfl | hp'
      · obtain ⟨k', hk'⟩ : ∃ k', (computeSplitIndex (c :: rest) 2000).toNat = k' + 1 := by
          refine ⟨(computeSplitIndex (c :: rest) 2000).toNat - 1, ?_⟩
          omega
        rw [hk', List.take_succ_cons, jsTrim_cons_of_not_ws hcws]
        simp
      · refine ih (jsTrim ((c :: rest).drop (computeSplitIndex (c :: rest) 2000).toNat))
          ?_ part hp'
        intro c' hc'
        exact jsTrim_head_not_ws hc'
    · rw [if_neg hlen] at hp
      by_cases h0 : text.length > 0
      · rw [if_pos h0] at hp
        have : part = text := by simpa using hp
        subst this
        intro hnil
        rw [hnil] at h0
        simp at h0
      · rw [if_neg h0] at hp
        simp at hp

/-- Scanning fuel through a block of characters that cannot start a hit
advances the index without changing the running best. -/
theorem jsLastIndexOfAux_skip (c0 : Char) (stail : Str) (a : Char)
    (hne : (c0 == a) = false) :
    ∀ (n f : Nat) (rest : Str) (i : Nat) (best : Int),
      jsLastIndexOfAux (c0 :: stail) (n + f) (List.replicate n a ++ rest) i best
        = jsLastIndexOfAux (c0 :: stail) f rest (i + n) best := by
  intro n
  induction n with
  | zero =>
    intro f rest i best
    simp
  | succ m ih =>
    intro f rest i best
    have hpre : (c0 :: stail).isPrefixOf (a :: (List.replicate m a ++ rest)) = false := by
      simp [List.isPrefixOf, hne]
    have hstep : jsLastIndexOfAux (c0 :: stail) (m + f + 1)
          (a :: (List.replicate m a ++ rest)) i best
        = jsLastIndexOfAux (c0 :: stail) (m + f) (List.replicate m a ++ rest) (i + 1)
            best := by
      simp [jsLastIndexOfAux, hpre]
    calc jsLastIndexOfAux (c0 :: stail) (m + 1 + f) (List.replicate (m + 1) a ++ rest) i best
        = jsLastIndexOfAux (c0 :: stail) (m + f + 1)
            (a :: (List.replicate m a ++ rest)) i best := by
          have hf : m + 1 + f = m + f + 1 := by omega
          rw [List.replicate_succ, List.cons_append, hf]
      _ = jsLastIndexOfAux (c0 :: stail) (m + f) (List.replicate m a ++ rest)
            (i + 1) best := hstep
      _ = jsLastIndexOfAux (c0 :: stail) f rest (i + 1 + m) best := ih f rest (i + 1) best
      _ = jsLastIndexOfAux (c0 :: stail) f rest (i + (m + 1)) best := by
          have hi : i + 1 + m = i + (m + 1) := by omega
          rw [hi]

theorem trimLeft_replicate_space : ∀ n, trimLeft (List.replicate n ' ') = []
  | 0 => rfl
  | n + 1 => by
    rw [List.replicate_succ]
    show List.dropWhile isJsWs (' ' :: List.replicate n ' ') = []
    rw [List.dropWhile_cons]
    simp only [show isJsWs ' ' = true from rfl, if_true]
    exact trimLeft_replicate_space n

theorem jsTrim_replicate_space (n : Nat) : jsTrim (List.replicate n ' ') = [] := by
  rw [jsTrim, trimLeft_replicate_space]
  rfl

theorem jsLastIndexOfAux_zero (search s : Str) (i : Nat) (best : Int) :
    jsLastIndexOfAux search 0 s i best = best := rfl

theorem jsLastIndexOfAux_step (search s : Str) (f i : Nat) (best : Int) :
    jsLastIndexOfAux search (f + 1) s i best
      = jsLastIndexOfAux search f s.tail (i + 1)
          (if search.isPrefixOf s then (i : Int) else best) := rfl

theorem splitLongMessageGo_step (maxLen f : Nat) (remaining : Str) :
    splitLongMessageGo maxLen (f + 1) remaining
      = if remaining.length > maxLen then
          jsTrim (remaining.take (computeSplitIndex remaining maxLen).toNat)
            :: splitLongMessageGo maxLen f
                (jsTrim (remaining.drop (computeSplitIndex remaining maxLen).toNat))
        else if remaining.length > 0 then [remaining] else [] := rfl

theorem splitEmptyPartInput_length : splitEmptyPartInput.length = 2102 := by
  rw [splitEmptyPartInput, List.length_append, List.length_replicate, List.length_cons,
    List.length_cons, List.length_replicate]

theorem jsLastIndexOf_para_splitEmptyPartInput :
    jsLastIndexOf splitEmptyPartInput "\n\n".toList 2000 = 1500 := by
  rw [jsLastIndexOf, splitEmptyPartInput_length]
  have hfuel : min 2000 2102 + 1 = 1500 + 501 := by decide
  rw [hfuel, show "\n\n".toList = '\n' :: ['\n'] from rfl,
    show splitEmptyPartInput
      = List.replicate 1500 ' ' ++ ('\n' :: '\n' :: List.replicate 600 'b') from rfl]
  rw [jsLastIndexOfAux_skip '\n' ['\n'] ' ' (by decide) 1500 501
    ('\n' :: '\n' :: List.replicate 600 'b') 0 (-1)]
  have h1 : jsLastIndexOfAux ('\n' :: ['\n']) (500 + 1)
        ('\n' :: '\n' :: List.replicate 600 'b') 1500 (-1)
      = jsLastIndexOfAux ('\n' :: ['\n']) 500 ('\n' :: List.replicate 600 'b') 1501
          (1500 : Int) := by
    rw [jsLastIndexOfAux_step, if_pos (by decide : List.isPrefixOf ('\n' :: ['\n'])
      ('\n' :: '\n' :: List.replicate 600 'b') = true)]
    simp only [List.tail_cons, Nat.cast_ofNat, Nat.reduceAdd]
  have h2 : jsLastIndexOfAux ('\n' :: ['\n']) (499 + 1)
        ('\n' :: List.replicate 600 'b') 1501 (1500 : Int)
      = jsLastIndexOfAux ('\n' :: ['\n']) 499 (List.replicate 600 'b') 1502
          (1500 : Int) := by
    rw [jsLastIndexOfAux_step, if_neg (by decide : ¬(List.isPrefixOf ('\n' :: ['\n'])
      ('\n' :: List.replicate 600 'b') = true))]
    simp only [List.tail_cons, Nat.reduceAdd]
  have h3 : jsLastIndexOfAux ('\n' :: ['\n']) 499 (List.replicate 600 'b') 1502
      (1500 : Int) = 1500 := by
    rw [show (600 : Nat) = 499 + 101 from by decide, List.replicate_add]
    show jsLastIndexOfAux ('\n' :: ['\n']) (499 + 0)
        (List.replicate 499 'b' ++ List.replicate 101 'b') 1502 1500 = 1500
    rw [jsLastIndexOfAux_skip '\n' ['\n'] 'b' (by decide) 499 0
      (List.replicate 101 'b') 1502 1500]
    exact jsLastIndexOfAux_zero ('\n' :: ['\n']) (List.replicate 101 'b') (1502 + 499) 1500
  show jsLastIndexOfAux ('\n' :: ['\n']) (500 + 1)
      ('\n' :: '\n' :: List.replicate 600 'b') 1500 (-1) = 1500
  rw [h1]
  show jsLastIndexOfAux ('\n' :: ['\n']) (499 + 1)
      ('\n' :: List.replicate 600 'b') 1501 (1500 : Int) = 1500
  rw [h2]
  exact h3

theorem computeSplitIndex_splitEmptyPartInput :
    computeSplitIndex splitEmptyPartInput MAX_MESSAGE_LENGTH = 1500 := by
  show computeSplitIndex splitEmptyPartInput 2000 = 1500
  simp only [computeSplitIndex]
  rw [jsLastIndexOf_para_splitEmptyPartInput]
  decide

/-- **C8 (counterexample).** `splitLongMessage` can emit an empty part:
on 1500 spaces followed by a paragraph break and 600 `b`s (2102
characters, over the 2000 budget), the paragraph-break cut at index 1500
trims to the empty string, which is pushed as a part. -/
theorem split_empty_part_counterexample :
    splitEmptyPartInput.length > MAX_MESSAGE_LENGTH
    ∧ [] ∈ splitLongMessage splitEmptyPartInput MAX_MESSAGE_LENGTH := by
  have hgt : splitEmptyPartInput.length > MAX_MESSAGE_LENGTH := by
    rw [splitEmptyPartInput_length]
    decide
  refine ⟨hgt, ?_⟩
  rw [splitLongMessage, splitLongMessageGo_step, if_pos hgt,
    computeSplitIndex_splitEmptyPartInput,
    show ((1500 : Int)).toNat = 1500 from rfl,
    show splitEmptyPartInput
      = List.replicate 1500 ' ' ++ ('\n' :: '\n' :: List.replicate 600 'b') from rfl,
    List.take_left' (by rw [List.length_replicate] :
      (List.replicate 1500 ' ').length = 1500),
    jsTrim_replicate_space]
  exact List.mem_cons_self _ _

/-- **C8 (amended).** At the platform budget of 2000 characters,
`splitLongMessage` never emits a part longer than 2000; and provided the
input does not begin with a whitespace character (as holds for every
string `parseResponse` passes in, which it trims first), it never emits
an empty part.  (A whitespace-led input can produce an empty part — see
the counterexample.) -/
theorem split_respects_budget (text : Str) :
    (∀ part ∈ splitLongMessage text MAX_MESSAGE_LENGTH,
      part.length ≤ MAX_MESSAGE_LENGTH)
    ∧ ((∀ c, text.head? = some c → isJsWs c = false) →
        ∀ part ∈ splitLongMessage text MAX_MESSAGE_LENGTH, part ≠ []) := by
  constructor
  · intro part hp
    exact splitLongMessageGo_length_le MAX_MESSAGE_LENGTH (text.length + 1) text part hp
  · intro hhead part hp
    exact splitLongMessageGo_ne_nil (text.length + 1) text hhead part hp

/-- Witness for `split_respects_budget`: the two-character input `hi`. -/
theorem split_respects_budget_witness :
    (∀ part ∈ splitLongMessage "hi".toList MAX_MESSAGE_LENGTH,
      part.length ≤ MAX_MESSAGE_LENGTH)
    ∧ ∀ part ∈ splitLongMessage "hi".toList MAX_MESSAGE_LENGTH, part ≠ [] :=
  ⟨(split_respects_budget "hi".toList).1,
   (split_respects_budget "hi".toList).2 (by
      intro c hc
      have hch : 'h' = c := by simpa using hc
      rw [← hch]
      decide)⟩

end Groupthink
